import Mathlib

/-
Verification development for the DocumentStore state engine of the AIEditor
repository. Every definition below is a shallow embedding of the JavaScript
class DocumentStore (file src/unnamed/part_000): JS Maps become association
lists with Map insertion semantics, JS Sets become duplicate-free lists with
Set insertion semantics, array splice and slice keep their exact clamping
behaviour, Date.now() is threaded as an explicit clock argument, and the
random id generator is threaded as an explicit generated-id argument.
-/

namespace AIEditor

/-- Model of JS array.slice(0, e): a negative end index counts from the end
of the array, clamped at zero. -/
def jsSliceTo {α : Type} (l : List α) (e : Int) : List α :=
  if e < 0 then l.take (l.length - (-e).toNat) else l.take e.toNat

/-- Model of the start-index normalisation of JS array.splice: a negative
start counts from the end clamped at zero, a start beyond the length clamps
to the length. -/
def spliceStart (len : Nat) (st : Int) : Nat :=
  if st < 0 then len - (-st).toNat else min st.toNat len

/-- Model of JS array.splice(i, 0, a): insert a at (already normalised)
position i. -/
def jsInsertAt {α : Type} (l : List α) (i : Nat) (a : α) : List α :=
  l.take i ++ a :: l.drop i

/-- Model of JS array.splice(i, 1): remove the element at (already
normalised) position i; removing at or beyond the length removes nothing. -/
def jsEraseAt {α : Type} (l : List α) (i : Nat) : List α :=
  l.take i ++ l.drop (i + 1)

/-- Index of the first occurrence of a string in a list, if any. -/
def listIndexOf : List String → String → Option Nat
  | [], _ => none
  | x :: xs, a => if x = a then some 0 else (listIndexOf xs a).map (· + 1)

/-- Model of JS array.indexOf: minus one when the element is absent. -/
def jsIndexOf (l : List String) (a : String) : Int :=
  match listIndexOf l a with
  | some i => (i : Int)
  | none => -1

/-- Model of a JS array access arr[i] with an Int index: out-of-range and
negative accesses yield undefined, modelled as none. -/
def jsGetElem {α : Type} (l : List α) (i : Int) : Option α :=
  if i < 0 then none else l.get? i.toNat

/-- Block Record: the six persistable fields of a block as produced by
DocumentStore.addBlock and consumed by serialize (part_000 lines 114-139 and
384-391). Free-form attributes are modelled as a key/value list. -/
structure Block where
  id : String
  type : String
  content : String
  attributes : List (String × String)
  createdAt : Nat
  updatedAt : Nat
deriving DecidableEq

/-- Caller-supplied partial block data for addBlock and updateBlock: each
field is optionally present, mirroring a JS object that may or may not carry
the key. -/
structure BlockData where
  id : Option String
  type : Option String
  content : Option String
  attributes : Option (List (String × String))
  createdAt : Option Nat
  updatedAt : Option Nat
deriving DecidableEq

/-- Document metadata record (part_000 lines 45-50). -/
structure Metadata where
  configuration : Option String
  subsystem : Option String
  author : Option String
  tags : List String
deriving DecidableEq

/-- Partial metadata update for updateMetadata (spread merge). -/
structure MetadataPatch where
  configuration : Option (Option String)
  subsystem : Option (Option String)
  author : Option (Option String)
  tags : Option (List String)
deriving DecidableEq

/-- Payload of a history entry, by action kind (part_000 lines 330-369). -/
inductive HistoryData where
  | addBlockD (blockId : String) (block : Block)
  | removeBlockD (blockId : String) (block : Block)
  | updateBlockD (blockId : String) (oldBlock : Block) (newBlock : Block)
  | moveBlockD (blockId : String) (fromIdx : Int) (toIdx : Int)
deriving DecidableEq

/-- One recorded history entry: action payload plus timestamp (part_000
lines 281-285). -/
structure HistoryItem where
  data : HistoryData
  timestamp : Nat
deriving DecidableEq

/-- Output shape of DocumentStore.serialize (part_000 lines 376-393). -/
structure SerializedDoc where
  documentId : String
  title : String
  version : String
  createdAt : Nat
  updatedAt : Nat
  metadata : Metadata
  blocks : List Block
deriving DecidableEq

/-- Association-list model of the JS Map blockId to block: mapGet is
Map.get. -/
def mapGet : List (String × Block) → String → Option Block
  | [], _ => none
  | p :: m, k => if p.1 = k then some p.2 else mapGet m k

/-- Map.set: replace the value of an existing key in place, otherwise append
the new entry at the end (JS Map preserves insertion order). -/
def mapSet : List (String × Block) → String → Block → List (String × Block)
  | [], k, v => [(k, v)]
  | p :: m, k, v => if p.1 = k then (k, v) :: m else p :: mapSet m k v

/-- Map.delete: remove the entry of the key, if present. -/
def mapDelete : List (String × Block) → String → List (String × Block)
  | [], _ => []
  | p :: m, k => if p.1 = k then m else p :: mapDelete m k

/-- Set.add: append unless already present. -/
def setAdd (s : List String) (k : String) : List String :=
  if k ∈ s then s else s ++ [k]

/-- Set.delete: remove the single occurrence, if present. -/
def setDelete : List String → String → List String
  | [], _ => []
  | x :: s, k => if x = k then s else x :: setDelete s k

/-- Full state of the DocumentStore (part_000 lines 19-51). The subscriber
set lives outside this record, as in the source where it is a field of the
store object rather than of this.state. -/
structure DocState where
  documentId : String
  title : String
  version : String
  createdAt : Nat
  updatedAt : Nat
  blocks : List (String × Block)
  blockOrder : List String
  selectedBlocks : List String
  focusedBlock : Option String
  history : List HistoryItem
  historyIndex : Int
  maxHistorySize : Nat
  editMode : Bool
  readOnly : Bool
  metadata : Metadata
deriving DecidableEq

/-- Constructor state of the store (part_000 lines 19-51), with the
generated document id and the clock passed explicitly. -/
def initState (docId : String) (now : Nat) : DocState :=
  { documentId := docId
    title := "Untitled Document"
    version := "1.0.0"
    createdAt := now
    updatedAt := now
    blocks := []
    blockOrder := []
    selectedBlocks := []
    focusedBlock := none
    history := []
    historyIndex := -1
    maxHistorySize := 50
    editMode := false
    readOnly := false
    metadata := { configuration := none, subsystem := none, author := none, tags := [] } }

/-- Notification of subscribers (part_000 lines 85-98): the state effect of
notify is refreshing updatedAt; observers are modelled separately (see
runSubscribers) since they cannot change state through the call itself. -/
def notify (s : DocState) (now : Nat) : DocState :=
  { s with updatedAt := now }

/-- Recording into history (part_000 lines 276-293): truncate after the
cursor, append, then either evict the oldest entry (cursor unchanged) or
advance the cursor. -/
def saveToHistory (s : DocState) (d : HistoryData) (now : Nat) : DocState :=
  let hist := jsSliceTo s.history (s.historyIndex + 1) ++ [{ data := d, timestamp := now }]
  if hist.length > s.maxHistorySize then
    { s with history := hist.drop 1 }
  else
    { s with history := hist, historyIndex := s.historyIndex + 1 }

/-- The block id chosen by addBlock (part_000 line 115): the caller id when
present and truthy (nonempty), otherwise the generated id. -/
def chosenId (d : BlockData) (genId : String) : String :=
  match d.id with
  | some i => if i = "" then genId else i
  | none => genId

/-- The Block Record built by addBlock (part_000 lines 117-125): defaults
merged under the caller data, with the caller data spread last so that every
present field wins. -/
def buildBlock (d : BlockData) (blockId : String) (now : Nat) : Block :=
  { id := d.id.getD blockId
    type := d.type.getD "text-block"
    content := d.content.getD ""
    attributes := d.attributes.getD []
    createdAt := d.createdAt.getD now
    updatedAt := d.updatedAt.getD now }

/-- DocumentStore.addBlock (part_000 lines 114-139). Returns the new state
and the block id. -/
def addBlock (s : DocState) (d : BlockData) (position : Option Int) (genId : String) (now : Nat) :
    DocState × String :=
  let blockId := chosenId d genId
  let block := buildBlock d blockId now
  let s1 := { s with blocks := mapSet s.blocks blockId block }
  let s2 := { s1 with blockOrder :=
    match position with
    | some p =>
      if 0 ≤ p ∧ p ≤ (s1.blockOrder.length : Int) then
        jsInsertAt s1.blockOrder p.toNat blockId
      else
        s1.blockOrder ++ [blockId]
    | none => s1.blockOrder ++ [blockId] }
  let s3 := saveToHistory s2 (HistoryData.addBlockD blockId block) now
  (notify s3 now, blockId)

/-- DocumentStore.removeBlock (part_000 lines 145-161). -/
def removeBlock (s : DocState) (blockId : String) (now : Nat) : DocState × Bool :=
  match mapGet s.blocks blockId with
  | none => (s, false)
  | some block =>
    let s1 := { s with
      blocks := mapDelete s.blocks blockId
      blockOrder := s.blockOrder.filter (· ≠ blockId)
      selectedBlocks := setDelete s.selectedBlocks blockId
      focusedBlock := if s.focusedBlock = some blockId then none else s.focusedBlock }
    let s2 := saveToHistory s1 (HistoryData.removeBlockD blockId block) now
    (notify s2 now, true)

/-- The merged record of updateBlock (part_000 lines 172-177): updates are
spread over the block and updatedAt is then forced to the current time. -/
def mergeUpdate (b : Block) (u : BlockData) (now : Nat) : Block :=
  { id := u.id.getD b.id
    type := u.type.getD b.type
    content := u.content.getD b.content
    attributes := u.attributes.getD b.attributes
    createdAt := u.createdAt.getD b.createdAt
    updatedAt := now }

/-- DocumentStore.updateBlock (part_000 lines 168-185). -/
def updateBlock (s : DocState) (blockId : String) (u : BlockData) (now : Nat) :
    DocState × Bool :=
  match mapGet s.blocks blockId with
  | none => (s, false)
  | some block =>
    let updated := mergeUpdate block u now
    let s1 := { s with blocks := mapSet s.blocks blockId updated }
    let s2 := saveToHistory s1 (HistoryData.updateBlockD blockId block updated) now
    (notify s2 now, true)

/-- DocumentStore.moveBlock (part_000 lines 207-218): splice the id out of
its current position and splice it back in at the caller-supplied position,
which JS splice clamps into range. -/
def moveBlock (s : DocState) (blockId : String) (newPosition : Int) (now : Nat) :
    DocState × Bool :=
  match listIndexOf s.blockOrder blockId with
  | none => (s, false)
  | some ci =>
    let removed := jsEraseAt s.blockOrder ci
    let inserted := jsInsertAt removed (spliceStart removed.length newPosition) blockId
    let s1 := { s with blockOrder := inserted }
    let s2 := saveToHistory s1 (HistoryData.moveBlockD blockId (ci : Int) newPosition) now
    (notify s2 now, true)

/-- DocumentStore.selectBlock (part_000 lines 227-234). -/
def selectBlock (s : DocState) (blockId : String) (multiSelect : Bool) (now : Nat) : DocState :=
  let base := if multiSelect then s.selectedBlocks else []
  notify { s with selectedBlocks := setAdd base blockId } now

/-- DocumentStore.deselectBlock (part_000 lines 240-243). -/
def deselectBlock (s : DocState) (blockId : String) (now : Nat) : DocState :=
  notify { s with selectedBlocks := setDelete s.selectedBlocks blockId } now

/-- DocumentStore.clearSelection (part_000 lines 248-251). -/
def clearSelection (s : DocState) (now : Nat) : DocState :=
  notify { s with selectedBlocks := [] } now

/-- DocumentStore.focusBlock (part_000 lines 264-267). -/
def focusBlock (s : DocState) (blockId : String) (now : Nat) : DocState :=
  notify { s with focusedBlock := some blockId } now

/-- DocumentStore.applyHistoryItem (part_000 lines 330-369). -/
def applyHistoryItem (s : DocState) (item : HistoryItem) (reverse : Bool) : DocState :=
  match item.data with
  | HistoryData.addBlockD blockId block =>
    if reverse then
      { s with blocks := mapDelete s.blocks blockId
               blockOrder := s.blockOrder.filter (· ≠ blockId) }
    else
      { s with blocks := mapSet s.blocks blockId block
               blockOrder := s.blockOrder ++ [blockId] }
  | HistoryData.removeBlockD blockId block =>
    if reverse then
      { s with blocks := mapSet s.blocks blockId block
               blockOrder := s.blockOrder ++ [blockId] }
    else
      { s with blocks := mapDelete s.blocks blockId
               blockOrder := s.blockOrder.filter (· ≠ blockId) }
  | HistoryData.updateBlockD blockId oldB newB =>
    { s with blocks := mapSet s.blocks blockId (if reverse then oldB else newB) }
  | HistoryData.moveBlockD blockId fromIdx toIdx =>
    let ci := jsIndexOf s.blockOrder blockId
    let removed := jsEraseAt s.blockOrder (spliceStart s.blockOrder.length ci)
    let inserted :=
      jsInsertAt removed (spliceStart removed.length (if reverse then fromIdx else toIdx)) blockId
    { s with blockOrder := inserted }

/-- DocumentStore.undo (part_000 lines 298-308). Returns none when the code
would throw (history access at an out-of-range nonnegative cursor feeding an
undefined item into applyHistoryItem). -/
def undo (s : DocState) (now : Nat) : Option (DocState × Bool) :=
  if s.historyIndex < 0 then some (s, false)
  else
    match jsGetElem s.history s.historyIndex with
    | none => none
    | some item =>
      let s1 := applyHistoryItem s item true
      let s2 := { s1 with historyIndex := s1.historyIndex - 1 }
      some (notify s2 now, true)

/-- DocumentStore.redo (part_000 lines 313-323). Returns none when the code
would throw. -/
def redo (s : DocState) (now : Nat) : Option (DocState × Bool) :=
  if s.historyIndex ≥ (s.history.length : Int) - 1 then some (s, false)
  else
    let i := s.historyIndex + 1
    match jsGetElem s.history i with
    | none => none
    | some item =>
      let s1 := { s with historyIndex := i }
      let s2 := applyHistoryItem s1 item false
      some (notify s2 now, true)

/-- DocumentStore.getBlocks (part_000 lines 198-200): map the ordering index
through the store and drop missing entries. -/
def getBlocks (s : DocState) : List Block :=
  s.blockOrder.filterMap (mapGet s.blocks)

/-- DocumentStore.serialize (part_000 lines 376-393). A Block already holds
exactly the six persisted fields, so the per-block projection is the
identity. -/
def serialize (s : DocState) : SerializedDoc :=
  { documentId := s.documentId
    title := s.title
    version := s.version
    createdAt := s.createdAt
    updatedAt := s.updatedAt
    metadata := s.metadata
    blocks := getBlocks s }

/-- All-fields-present block data fed back into addBlock by deserialize. -/
def toBlockData (b : Block) : BlockData :=
  { id := some b.id
    type := some b.type
    content := some b.content
    attributes := some b.attributes
    createdAt := some b.createdAt
    updatedAt := some b.updatedAt }

/-- The forEach addBlock loop of deserialize (part_000 lines 412-416), with
the per-call generated ids supplied by gens applied to the running index. -/
def addAllBlocks (s : DocState) (bs : List Block) (gens : Nat → String) (i : Nat) (now : Nat) :
    DocState :=
  match bs with
  | [] => s
  | b :: rest => addAllBlocks (addBlock s (toBlockData b) none (gens i) now).1 rest gens (i + 1) now

/-- DocumentStore.deserialize (part_000 lines 399-419): reset the scalar
fields with JS falsy fallbacks, clear the store and index, replay addBlock
per incoming block, then notify. -/
def deserialize (s : DocState) (data : SerializedDoc) (genDocId : String) (gens : Nat → String)
    (now : Nat) : DocState :=
  let s1 := { s with
    documentId := if data.documentId = "" then genDocId else data.documentId
    title := if data.title = "" then "Untitled Document" else data.title
    version := if data.version = "" then "1.0.0" else data.version
    createdAt := if data.createdAt = 0 then now else data.createdAt
    updatedAt := if data.updatedAt = 0 then now else data.updatedAt
    metadata := data.metadata
    blocks := []
    blockOrder := [] }
  let s2 := addAllBlocks s1 data.blocks gens 0 now
  notify s2 now

/-- Metadata merge of updateMetadata (part_000 lines 473-479). -/
def mergeMetadata (m : Metadata) (p : MetadataPatch) : Metadata :=
  { configuration := p.configuration.getD m.configuration
    subsystem := p.subsystem.getD m.subsystem
    author := p.author.getD m.author
    tags := p.tags.getD m.tags }

/-- DocumentStore.updateMetadata (part_000 lines 473-479). -/
def updateMetadata (s : DocState) (p : MetadataPatch) (now : Nat) : DocState :=
  notify { s with metadata := mergeMetadata s.metadata p } now

/-- DocumentStore.setTitle (part_000 lines 485-488). -/
def setTitle (s : DocState) (t : String) (now : Nat) : DocState :=
  notify { s with title := t } now

/-- DocumentStore.clear (part_000 lines 495-504). -/
def clear (s : DocState) (now : Nat) : DocState :=
  notify { s with
    blocks := []
    blockOrder := []
    selectedBlocks := []
    focusedBlock := none
    history := []
    historyIndex := -1 } now

/-- One operation of the claim about addBlock, removeBlock and moveBlock
sequences. -/
inductive Op where
  | add (d : BlockData) (position : Option Int) (genId : String)
  | remove (blockId : String)
  | move (blockId : String) (newPosition : Int)
deriving DecidableEq

/-- Apply one Op at a given clock value. -/
def applyOp (s : DocState) (now : Nat) : Op → DocState
  | Op.add d p g => (addBlock s d p g now).1
  | Op.remove k => (removeBlock s k now).1
  | Op.move k p => (moveBlock s k p now).1

/-- Fold a timed operation sequence over a state. -/
def applyOps (s : DocState) : List (Op × Nat) → DocState
  | [] => s
  | (o, n) :: rest => applyOps (applyOp s n o) rest

/-- The keys of the block store, in insertion order. -/
def mapKeys (m : List (String × Block)) : List String :=
  m.map Prod.fst

/-- An add operation is fresh for a state when the id it will use (caller id
or generated id) is not already a key of the block store. Other operations
are always fresh. -/
def freshAdd (s : DocState) : Op → Bool
  | Op.add d _ g => decide (chosenId d g ∉ mapKeys s.blocks)
  | _ => true

/-- Every add in the sequence uses an id that is fresh at its point of
execution. -/
def stepwiseFresh (s : DocState) : List (Op × Nat) → Bool
  | [] => true
  | (o, n) :: rest => freshAdd s o && stepwiseFresh (applyOp s n o) rest

/-- Every public operation of the store, for the history-cursor invariant. -/
inductive FullOp where
  | addOp (d : BlockData) (position : Option Int) (genId : String)
  | removeOp (blockId : String)
  | updateOp (blockId : String) (u : BlockData)
  | moveOp (blockId : String) (newPosition : Int)
  | saveOp (d : HistoryData)
  | undoOp
  | redoOp
  | clearOp
  | deserializeOp (data : SerializedDoc) (genDocId : String) (gens : Nat → String)
  | selectOp (blockId : String) (multiSelect : Bool)
  | deselectOp (blockId : String)
  | clearSelectionOp
  | focusOp (blockId : String)
  | setTitleOp (t : String)
  | updateMetadataOp (p : MetadataPatch)

/-- Apply a public operation; none models a thrown exception (possible only
inside undo and redo at corrupted cursors). -/
def applyFullOp (s : DocState) (now : Nat) : FullOp → Option DocState
  | FullOp.addOp d p g => some (addBlock s d p g now).1
  | FullOp.removeOp k => some (removeBlock s k now).1
  | FullOp.updateOp k u => some (updateBlock s k u now).1
  | FullOp.moveOp k p => some (moveBlock s k p now).1
  | FullOp.saveOp d => some (saveToHistory s d now)
  | FullOp.undoOp => (undo s now).map Prod.fst
  | FullOp.redoOp => (redo s now).map Prod.fst
  | FullOp.clearOp => some (clear s now)
  | FullOp.deserializeOp data g gens => some (deserialize s data g gens now)
  | FullOp.selectOp k m => some (selectBlock s k m now)
  | FullOp.deselectOp k => some (deselectBlock s k now)
  | FullOp.clearSelectionOp => some (clearSelection s now)
  | FullOp.focusOp k => some (focusBlock s k now)
  | FullOp.setTitleOp t => some (setTitle s t now)
  | FullOp.updateMetadataOp p => some (updateMetadata s p now)

/-- Ordering-index consistency invariant of the data model: the index has no
duplicates and is a permutation of the store keys. -/
def StoreInv (s : DocState) : Prop :=
  s.blockOrder.Nodup ∧ s.blockOrder.Perm (mapKeys s.blocks)

instance (s : DocState) : Decidable (StoreInv s) := by
  unfold StoreInv; exact inferInstance

/-- History-cursor invariant: the cursor stays in the window from -1 to the
last entry. -/
def HistInv (s : DocState) : Prop :=
  -1 ≤ s.historyIndex ∧ s.historyIndex ≤ (s.history.length : Int) - 1

instance (s : DocState) : Decidable (HistInv s) := by
  unfold HistInv; exact inferInstance

/-- History-capacity invariant: the stack never exceeds its bound. -/
def HistCap (s : DocState) : Prop :=
  s.history.length ≤ s.maxHistorySize

instance (s : DocState) : Decidable (HistCap s) := by
  unfold HistCap; exact inferInstance

/-- Identity consistency of the store: every entry is keyed by the id field
of its record and ids are nonempty (truthy) strings. -/
def IdConsistent (s : DocState) : Prop :=
  ∀ p ∈ s.blocks, p.2.id = p.1 ∧ p.1 ≠ ""

instance (s : DocState) : Decidable (IdConsistent s) := by
  unfold IdConsistent; exact inferInstance

/-- Well-formed document state: the data-model invariants of the spec
(ordering consistency, identity consistency, history bookkeeping). -/
def WFDoc (s : DocState) : Prop :=
  StoreInv s ∧ IdConsistent s ∧ HistInv s ∧ HistCap s ∧ 1 ≤ s.maxHistorySize

instance (s : DocState) : Decidable (WFDoc s) := by
  unfold WFDoc; exact inferInstance

/-- A registered observer callback: receives the state and the change
description, and either returns or throws (Except.error). -/
abbrev Subscriber := DocState → String → Except String Unit

/-- The notification loop over subscribers (part_000 lines 88-94): each
callback runs inside its own try/catch, so a thrown error is recorded and
the loop continues with the remaining callbacks. The list of per-callback
outcomes is returned. -/
def runSubscribers (subs : List Subscriber) (st : DocState) (c : String) :
    List (Except String Unit) :=
  match subs with
  | [] => []
  | f :: rest => f st c :: runSubscribers rest st c

/-- Full notify cycle (part_000 lines 85-98): updatedAt is refreshed first,
then every subscriber is invoked with the refreshed state and the change
description. The resulting engine state is returned with the outcomes. -/
def notifyWith (s : DocState) (now : Nat) (subs : List Subscriber) (c : String) :
    DocState × List (Except String Unit) :=
  let st := notify s now
  (st, runSubscribers subs st c)

/-- Concrete block data with caller-supplied id a. -/
def dataA : BlockData :=
  { id := some "a", type := none, content := some "A", attributes := none,
    createdAt := none, updatedAt := none }

/-- Concrete block data with caller-supplied id b. -/
def dataB : BlockData :=
  { id := some "b", type := none, content := some "B", attributes := none,
    createdAt := none, updatedAt := none }

/-- Concrete block data with caller-supplied id c. -/
def dataC : BlockData :=
  { id := some "c", type := none, content := some "C", attributes := none,
    createdAt := none, updatedAt := none }

/-- State after adding block a to a fresh document. -/
def stateA : DocState := (addBlock (initState "doc" 0) dataA none "g1" 1).1

/-- State after adding block a twice with the same caller-supplied id. -/
def stateAA : DocState :=
  applyOps (initState "doc" 0) [(Op.add dataA none "g1", 1), (Op.add dataA none "g2", 2)]

/-- State after adding block b on top of stateA (an append add). -/
def stateAB : DocState := (addBlock stateA dataB none "g2" 2).1

/-- State after adding block c at position 0 on top of stateA. -/
def stateACfront : DocState := (addBlock stateA dataC (some 0) "g3" 1).1

/-- C1 counterexample: the sequence addBlock(id a), addBlock(id a) with the
same caller-supplied id leaves the ordering index with a duplicate entry and
a length different from the block-store size, refuting the claimed invariant
for sequences that reuse a caller-supplied id. -/
theorem claim1_counterexample :
    ¬ (stateAA.blockOrder.Nodup ∧ stateAA.blockOrder.length = stateAA.blocks.length) := by
  decide

/-- C2 counterexample: after the single mutation addBlock(id b) on a
reachable state, undo succeeds (returns true) but the serialize output
differs from the pre-mutation serialize output, because notify refreshed the
document-level updatedAt field; the mutation is not a removeBlock, so the
documented remove exception does not apply. -/
theorem claim2_counterexample :
    (undo stateAB 2).map (fun p => (decide (serialize p.1 = serialize stateA), p.2)) =
      some (false, true) := by
  decide

/-- C3 counterexample: for the single mutation addBlock at valid position 0,
undo followed by redo (all at one clock instant) does not restore the
post-mutation state: the whole state differs and in particular the ordering
index differs, because redo of an add entry appends the id at the end. -/
theorem claim3_counterexample :
    ((undo stateACfront 1).bind (fun p => (redo p.1 1).map Prod.fst)).map
        (fun s => (decide (s = stateACfront), decide (s.blockOrder = stateACfront.blockOrder))) =
      some (false, false) := by
  decide

/-! Lemmas about the Map model. -/

theorem mapKeys_nil : mapKeys [] = [] := rfl

theorem mapKeys_cons (p : String × Block) (m : List (String × Block)) :
    mapKeys (p :: m) = p.1 :: mapKeys m := rfl

theorem mapKeys_append (m m' : List (String × Block)) :
    mapKeys (m ++ m') = mapKeys m ++ mapKeys m' := by
  simp [mapKeys]

theorem mapGet_eq_none_iff (m : List (String × Block)) (k : String) :
    mapGet m k = none ↔ k ∉ mapKeys m := by
  induction m with
  | nil => simp [mapGet, mapKeys_nil]
  | cons p m ih =>
    by_cases h : p.1 = k
    · simp [mapGet, h, mapKeys_cons]
    · simp [mapGet, h, mapKeys_cons, ih, Ne.symm h]

theorem mapGet_isSome_of_mem (m : List (String × Block)) (k : String) (h : k ∈ mapKeys m) :
    ∃ v, mapGet m k = some v := by
  cases hg : mapGet m k with
  | none => exact absurd ((mapGet_eq_none_iff m k).mp hg) (by simp [h])
  | some v => exact ⟨v, rfl⟩

theorem mapGet_mem (m : List (String × Block)) (k : String) (v : Block)
    (h : mapGet m k = some v) : (k, v) ∈ m := by
  induction m with
  | nil => simp [mapGet] at h
  | cons p m ih =>
    by_cases hp : p.1 = k
    · simp [mapGet, hp] at h
      exact List.mem_cons.mpr (Or.inl (by cases p; simp_all))
    · simp [mapGet, hp] at h
      exact List.mem_cons.mpr (Or.inr (ih h))

theorem mapSet_absent (m : List (String × Block)) (k : String) (v : Block)
    (h : k ∉ mapKeys m) : mapSet m k v = m ++ [(k, v)] := by
  induction m with
  | nil => simp [mapSet]
  | cons p m ih =>
    simp only [mapKeys_cons, List.mem_cons, not_or] at h
    simp [mapSet, Ne.symm h.1, ih h.2]

theorem mapGet_set_self (m : List (String × Block)) (k : String) (v : Block) :
    mapGet (mapSet m k v) k = some v := by
  induction m with
  | nil => simp [mapSet, mapGet]
  | cons p m ih =>
    by_cases hp : p.1 = k <;> simp [mapSet, hp, mapGet, ih]

theorem mapGet_set_other (m : List (String × Block)) (k k' : String) (v : Block)
    (h : k' ≠ k) : mapGet (mapSet m k v) k' = mapGet m k' := by
  induction m with
  | nil => simp [mapSet, mapGet, Ne.symm h]
  | cons p m ih =>
    by_cases hp : p.1 = k
    · subst hp
      simp [mapSet, mapGet, Ne.symm h]
    · simp [mapSet, hp, mapGet, ih]

theorem mapDelete_absent (m : List (String × Block)) (k : String)
    (h : k ∉ mapKeys m) : mapDelete m k = m := by
  induction m with
  | nil => simp [mapDelete]
  | cons p m ih =>
    simp only [mapKeys_cons, List.mem_cons, not_or] at h
    simp [mapDelete, Ne.symm h.1, ih h.2]

theorem mapDelete_append_single (m : List (String × Block)) (k : String) (v : Block)
    (h : k ∉ mapKeys m) : mapDelete (m ++ [(k, v)]) k = m := by
  induction m with
  | nil => simp [mapDelete]
  | cons p m ih =>
    simp only [mapKeys_cons, List.mem_cons, not_or] at h
    simp [mapDelete, Ne.symm h.1, ih h.2]

theorem mapSet_set (m : List (String × Block)) (k : String) (v w : Block) :
    mapSet (mapSet m k v) k w = mapSet m k w := by
  induction m with
  | nil => simp [mapSet]
  | cons p m ih =>
    by_cases hp : p.1 = k <;> simp [mapSet, hp, ih]

theorem mapSet_get_same (m : List (String × Block)) (k : String) (v : Block)
    (h : mapGet m k = some v) : mapSet m k v = m := by
  induction m with
  | nil => simp [mapGet] at h
  | cons p m ih =>
    by_cases hp : p.1 = k
    · simp [mapGet, hp] at h
      simp [mapSet, hp]
      cases p
      simp_all
    · simp [mapGet, hp] at h
      simp [mapSet, hp, ih h]

theorem mapKeys_set_present (m : List (String × Block)) (k : String) (v : Block)
    (h : k ∈ mapKeys m) : mapKeys (mapSet m k v) = mapKeys m := by
  induction m with
  | nil => simp [mapKeys_nil] at h
  | cons p m ih =>
    by_cases hp : p.1 = k
    · simp [mapSet, hp, mapKeys_cons]
    · simp only [mapKeys_cons, List.mem_cons] at h
      rcases h with h | h
      · exact absurd h.symm hp
      · simp [mapSet, hp, mapKeys_cons, ih h]

theorem mapKeys_set_absent (m : List (String × Block)) (k : String) (v : Block)
    (h : k ∉ mapKeys m) : mapKeys (mapSet m k v) = mapKeys m ++ [k] := by
  rw [mapSet_absent m k v h, mapKeys_append]
  rfl

theorem mapKeys_delete (m : List (String × Block)) (k : String) :
    mapKeys (mapDelete m k) = (mapKeys m).erase k := by
  induction m with
  | nil => simp [mapDelete, mapKeys_nil]
  | cons p m ih =>
    by_cases hp : p.1 = k
    · simp [mapDelete, hp, mapKeys_cons, List.erase_cons, hp]
    · simp [mapDelete, hp, mapKeys_cons, List.erase_cons, Ne.symm hp, ih]

theorem mapGet_delete_other (m : List (String × Block)) (k k' : String)
    (h : k' ≠ k) : mapGet (mapDelete m k) k' = mapGet m k' := by
  induction m with
  | nil => simp [mapDelete]
  | cons p m ih =>
    by_cases hp : p.1 = k
    · subst hp
      simp [mapDelete, mapGet, Ne.symm h]
    · simp [mapDelete, hp, mapGet, ih]

theorem not_mem_mapKeys_delete (m : List (String × Block)) (k : String)
    (h : (mapKeys m).Nodup) : k ∉ mapKeys (mapDelete m k) := by
  rw [mapKeys_delete]
  exact h.not_mem_erase


/-! Lemmas about the JS array helpers. -/

theorem jsInsertAt_perm {α : Type} (l : List α) (i : Nat) (a : α) :
    (jsInsertAt l i a).Perm (a :: l) := by
  have h : (l.take i ++ a :: l.drop i).Perm (a :: (l.take i ++ l.drop i)) :=
    List.perm_middle
  rw [List.take_append_drop] at h
  exact h

theorem jsInsertAt_length {α : Type} (l : List α) (i : Nat) (a : α) :
    (jsInsertAt l i a).length = l.length + 1 :=
  (jsInsertAt_perm l i a).length_eq

theorem jsInsertAt_nodup {α : Type} (l : List α) (i : Nat) (a : α)
    (h1 : l.Nodup) (h2 : a ∉ l) : (jsInsertAt l i a).Nodup :=
  ((jsInsertAt_perm l i a).nodup_iff).mpr (List.nodup_cons.mpr ⟨h2, h1⟩)

theorem mem_jsInsertAt {α : Type} (l : List α) (i : Nat) (a b : α) :
    b ∈ jsInsertAt l i a ↔ b = a ∨ b ∈ l := by
  rw [(jsInsertAt_perm l i a).mem_iff, List.mem_cons]

theorem filter_ne_of_not_mem (l : List String) (a : String) (h : a ∉ l) :
    l.filter (· ≠ a) = l := by
  induction l with
  | nil => rfl
  | cons x xs ih =>
    simp only [List.mem_cons, not_or] at h
    simp only [List.filter_cons]
    rw [if_pos (by simp [Ne.symm h.1]), ih h.2]

theorem filter_jsInsertAt (l : List String) (i : Nat) (a : String) (h : a ∉ l) :
    (jsInsertAt l i a).filter (· ≠ a) = l := by
  have h1 : a ∉ l.take i := fun hm => h (List.take_subset i l hm)
  have h2 : a ∉ l.drop i := fun hm => h (List.drop_subset i l hm)
  unfold jsInsertAt
  rw [List.filter_append, List.filter_cons]
  rw [if_neg (by simp)]
  rw [filter_ne_of_not_mem _ _ h1, filter_ne_of_not_mem _ _ h2, List.take_append_drop]

theorem jsEraseAt_jsInsertAt {α : Type} (l : List α) (i : Nat) (a : α) (h : i ≤ l.length) :
    jsEraseAt (jsInsertAt l i a) i = l := by
  have hlen : (l.take i).length = i := by
    rw [List.length_take]; omega
  have hlen2 : (l.take i ++ [a]).length = i + 1 := by
    simp [hlen]
  unfold jsEraseAt jsInsertAt
  have e1 : (l.take i ++ a :: l.drop i).take i = l.take i := List.take_left' hlen
  have e2 : (l.take i ++ a :: l.drop i).drop (i + 1) = l.drop i := by
    have ha : l.take i ++ a :: l.drop i = (l.take i ++ [a]) ++ l.drop i := by simp
    rw [ha]
    exact List.drop_left' hlen2
  rw [e1, e2, List.take_append_drop]

theorem jsInsertAt_jsEraseAt {α : Type} (l : List α) (i : Nat) (a : α)
    (h : i < l.length) (hd : l = l.take i ++ a :: l.drop (i + 1)) :
    jsInsertAt (jsEraseAt l i) i a = l := by
  have hlen : (l.take i).length = i := by
    rw [List.length_take]; omega
  unfold jsInsertAt jsEraseAt
  have e1 : (l.take i ++ l.drop (i + 1)).take i = l.take i := List.take_left' hlen
  have e2 : (l.take i ++ l.drop (i + 1)).drop i = l.drop (i + 1) := List.drop_left' hlen
  rw [e1, e2]
  exact hd.symm

theorem listIndexOf_eq_none_iff (l : List String) (a : String) :
    listIndexOf l a = none ↔ a ∉ l := by
  induction l with
  | nil => simp [listIndexOf]
  | cons x xs ih =>
    by_cases h : x = a
    · simp [listIndexOf, h]
    · simp [listIndexOf, h, ih, Ne.symm h]

theorem listIndexOf_decomp (l : List String) (a : String) (i : Nat)
    (h : listIndexOf l a = some i) :
    l.take i ++ a :: l.drop (i + 1) = l ∧ i < l.length := by
  induction l generalizing i with
  | nil => simp [listIndexOf] at h
  | cons x xs ih =>
    by_cases hx : x = a
    · simp [listIndexOf, hx] at h
      subst hx
      rw [← h]
      simp
    · simp only [listIndexOf, hx, if_false] at h
      cases hj : listIndexOf xs a with
      | none => rw [hj] at h; simp at h
      | some j =>
        rw [hj] at h
        simp at h
        obtain ⟨e, hl⟩ := ih j hj
        constructor
        · rw [← h]
          simpa using e
        · rw [← h]
          simpa using hl

theorem listIndexOf_insertAt_fresh (l : List String) (a : String) (i : Nat)
    (h : a ∉ l) (hi : i ≤ l.length) :
    listIndexOf (jsInsertAt l i a) a = some i := by
  induction l generalizing i with
  | nil =>
    have hz : i = 0 := Nat.le_zero.mp hi
    subst hz
    simp [jsInsertAt, listIndexOf]
  | cons x xs ih =>
    simp only [List.mem_cons, not_or] at h
    cases i with
    | zero => simp [jsInsertAt, listIndexOf]
    | succ j =>
      have hstep : jsInsertAt (x :: xs) (j + 1) a = x :: jsInsertAt xs j a := by
        simp [jsInsertAt]
      rw [hstep]
      simp [listIndexOf, Ne.symm h.1, ih j h.2 (by simpa using hi)]

theorem spliceStart_le (len : Nat) (st : Int) : spliceStart len st ≤ len := by
  unfold spliceStart
  split
  · exact Nat.sub_le _ _
  · exact Nat.min_le_right _ _

theorem spliceStart_of_le (len i : Nat) (h : i ≤ len) : spliceStart len (i : Int) = i := by
  unfold spliceStart
  rw [if_neg (by omega)]
  simp [Nat.min_eq_left h]

/-! Frame lemmas: which state fields each operation touches. -/

@[simp] theorem notify_blocks (s : DocState) (n : Nat) : (notify s n).blocks = s.blocks := rfl

@[simp] theorem notify_blockOrder (s : DocState) (n : Nat) :
    (notify s n).blockOrder = s.blockOrder := rfl

@[simp] theorem notify_selectedBlocks (s : DocState) (n : Nat) :
    (notify s n).selectedBlocks = s.selectedBlocks := rfl

@[simp] theorem notify_focusedBlock (s : DocState) (n : Nat) :
    (notify s n).focusedBlock = s.focusedBlock := rfl

@[simp] theorem notify_history (s : DocState) (n : Nat) : (notify s n).history = s.history := rfl

@[simp] theorem notify_historyIndex (s : DocState) (n : Nat) :
    (notify s n).historyIndex = s.historyIndex := rfl

@[simp] theorem notify_maxHistorySize (s : DocState) (n : Nat) :
    (notify s n).maxHistorySize = s.maxHistorySize := rfl

@[simp] theorem notify_documentId (s : DocState) (n : Nat) :
    (notify s n).documentId = s.documentId := rfl

@[simp] theorem notify_title (s : DocState) (n : Nat) : (notify s n).title = s.title := rfl

@[simp] theorem notify_version (s : DocState) (n : Nat) : (notify s n).version = s.version := rfl

@[simp] theorem notify_createdAt (s : DocState) (n : Nat) :
    (notify s n).createdAt = s.createdAt := rfl

@[simp] theorem notify_updatedAt (s : DocState) (n : Nat) : (notify s n).updatedAt = n := rfl

@[simp] theorem notify_metadata (s : DocState) (n : Nat) :
    (notify s n).metadata = s.metadata := rfl

@[simp] theorem notify_editMode (s : DocState) (n : Nat) :
    (notify s n).editMode = s.editMode := rfl

@[simp] theorem notify_readOnly (s : DocState) (n : Nat) :
    (notify s n).readOnly = s.readOnly := rfl

@[simp] theorem saveToHistory_editMode (s : DocState) (d : HistoryData) (n : Nat) :
    (saveToHistory s d n).editMode = s.editMode := by
  unfold saveToHistory; dsimp only; split <;> rfl

@[simp] theorem saveToHistory_readOnly (s : DocState) (d : HistoryData) (n : Nat) :
    (saveToHistory s d n).readOnly = s.readOnly := by
  unfold saveToHistory; dsimp only; split <;> rfl

@[simp] theorem saveToHistory_blocks (s : DocState) (d : HistoryData) (n : Nat) :
    (saveToHistory s d n).blocks = s.blocks := by
  unfold saveToHistory; dsimp only; split <;> rfl

@[simp] theorem saveToHistory_blockOrder (s : DocState) (d : HistoryData) (n : Nat) :
    (saveToHistory s d n).blockOrder = s.blockOrder := by
  unfold saveToHistory; dsimp only; split <;> rfl

@[simp] theorem saveToHistory_selectedBlocks (s : DocState) (d : HistoryData) (n : Nat) :
    (saveToHistory s d n).selectedBlocks = s.selectedBlocks := by
  unfold saveToHistory; dsimp only; split <;> rfl

@[simp] theorem saveToHistory_focusedBlock (s : DocState) (d : HistoryData) (n : Nat) :
    (saveToHistory s d n).focusedBlock = s.focusedBlock := by
  unfold saveToHistory; dsimp only; split <;> rfl

@[simp] theorem saveToHistory_documentId (s : DocState) (d : HistoryData) (n : Nat) :
    (saveToHistory s d n).documentId = s.documentId := by
  unfold saveToHistory; dsimp only; split <;> rfl

@[simp] theorem saveToHistory_title (s : DocState) (d : HistoryData) (n : Nat) :
    (saveToHistory s d n).title = s.title := by
  unfold saveToHistory; dsimp only; split <;> rfl

@[simp] theorem saveToHistory_version (s : DocState) (d : HistoryData) (n : Nat) :
    (saveToHistory s d n).version = s.version := by
  unfold saveToHistory; dsimp only; split <;> rfl

@[simp] theorem saveToHistory_createdAt (s : DocState) (d : HistoryData) (n : Nat) :
    (saveToHistory s d n).createdAt = s.createdAt := by
  unfold saveToHistory; dsimp only; split <;> rfl

@[simp] theorem saveToHistory_updatedAt (s : DocState) (d : HistoryData) (n : Nat) :
    (saveToHistory s d n).updatedAt = s.updatedAt := by
  unfold saveToHistory; dsimp only; split <;> rfl

@[simp] theorem saveToHistory_metadata (s : DocState) (d : HistoryData) (n : Nat) :
    (saveToHistory s d n).metadata = s.metadata := by
  unfold saveToHistory; dsimp only; split <;> rfl

@[simp] theorem saveToHistory_maxHistorySize (s : DocState) (d : HistoryData) (n : Nat) :
    (saveToHistory s d n).maxHistorySize = s.maxHistorySize := by
  unfold saveToHistory; dsimp only; split <;> rfl

theorem applyHistoryItem_history (s : DocState) (item : HistoryItem) (r : Bool) :
    (applyHistoryItem s item r).history = s.history := by
  unfold applyHistoryItem
  cases item.data <;> dsimp only <;> (try split) <;> rfl

theorem applyHistoryItem_historyIndex (s : DocState) (item : HistoryItem) (r : Bool) :
    (applyHistoryItem s item r).historyIndex = s.historyIndex := by
  unfold applyHistoryItem
  cases item.data <;> dsimp only <;> (try split) <;> rfl

theorem applyHistoryItem_maxHistorySize (s : DocState) (item : HistoryItem) (r : Bool) :
    (applyHistoryItem s item r).maxHistorySize = s.maxHistorySize := by
  unfold applyHistoryItem
  cases item.data <;> dsimp only <;> (try split) <;> rfl

theorem applyHistoryItem_selectedBlocks (s : DocState) (item : HistoryItem) (r : Bool) :
    (applyHistoryItem s item r).selectedBlocks = s.selectedBlocks := by
  unfold applyHistoryItem
  cases item.data <;> dsimp only <;> (try split) <;> rfl

theorem applyHistoryItem_focusedBlock (s : DocState) (item : HistoryItem) (r : Bool) :
    (applyHistoryItem s item r).focusedBlock = s.focusedBlock := by
  unfold applyHistoryItem
  cases item.data <;> dsimp only <;> (try split) <;> rfl

theorem applyHistoryItem_documentId (s : DocState) (item : HistoryItem) (r : Bool) :
    (applyHistoryItem s item r).documentId = s.documentId := by
  unfold applyHistoryItem
  cases item.data <;> dsimp only <;> (try split) <;> rfl

theorem applyHistoryItem_title (s : DocState) (item : HistoryItem) (r : Bool) :
    (applyHistoryItem s item r).title = s.title := by
  unfold applyHistoryItem
  cases item.data <;> dsimp only <;> (try split) <;> rfl

theorem applyHistoryItem_version (s : DocState) (item : HistoryItem) (r : Bool) :
    (applyHistoryItem s item r).version = s.version := by
  unfold applyHistoryItem
  cases item.data <;> dsimp only <;> (try split) <;> rfl

theorem applyHistoryItem_createdAt (s : DocState) (item : HistoryItem) (r : Bool) :
    (applyHistoryItem s item r).createdAt = s.createdAt := by
  unfold applyHistoryItem
  cases item.data <;> dsimp only <;> (try split) <;> rfl

theorem applyHistoryItem_updatedAt (s : DocState) (item : HistoryItem) (r : Bool) :
    (applyHistoryItem s item r).updatedAt = s.updatedAt := by
  unfold applyHistoryItem
  cases item.data <;> dsimp only <;> (try split) <;> rfl

theorem applyHistoryItem_metadata (s : DocState) (item : HistoryItem) (r : Bool) :
    (applyHistoryItem s item r).metadata = s.metadata := by
  unfold applyHistoryItem
  cases item.data <;> dsimp only <;> (try split) <;> rfl

/-! Characterisation lemmas for removeBlock and moveBlock. -/

theorem removeBlock_none (s : DocState) (k : String) (now : Nat)
    (h : mapGet s.blocks k = none) : removeBlock s k now = (s, false) := by
  unfold removeBlock
  rw [h]

theorem removeBlock_some (s : DocState) (k : String) (b : Block) (now : Nat)
    (h : mapGet s.blocks k = some b) :
    removeBlock s k now =
      (notify (saveToHistory { s with
          blocks := mapDelete s.blocks k
          blockOrder := s.blockOrder.filter (· ≠ k)
          selectedBlocks := setDelete s.selectedBlocks k
          focusedBlock := if s.focusedBlock = some k then none else s.focusedBlock }
        (HistoryData.removeBlockD k b) now) now, true) := by
  unfold removeBlock
  rw [h]

theorem setDelete_not_mem (l : List String) (k : String) (h : l.Nodup) :
    k ∉ setDelete l k := by
  induction l with
  | nil => simp [setDelete]
  | cons x xs ih =>
    rw [List.nodup_cons] at h
    by_cases hx : x = k
    · subst hx
      simp only [setDelete, if_pos rfl]
      exact h.1
    · simp only [setDelete, if_neg hx, List.mem_cons, not_or]
      exact ⟨fun he => hx he.symm, ih h.2⟩

/-- C5: removeBlock of an absent identity is a pure no-op returning false;
removeBlock of a present identity returns true, deletes the block from the
store and the ordering index, removes it from the selection set, and clears
the focused identity when it was the focused block. The two Nodup
hypotheses are facts of the JS runtime: a JS Map cannot hold two entries
with the same key and a JS Set cannot hold duplicates. -/
theorem claim5_removeBlock_contract (s : DocState) (blockId : String) (now : Nat)
    (hkeys : (mapKeys s.blocks).Nodup) (hsel : s.selectedBlocks.Nodup) :
    (mapGet s.blocks blockId = none → removeBlock s blockId now = (s, false)) ∧
    (∀ b, mapGet s.blocks blockId = some b →
      (removeBlock s blockId now).2 = true ∧
      mapGet (removeBlock s blockId now).1.blocks blockId = none ∧
      blockId ∉ (removeBlock s blockId now).1.blockOrder ∧
      blockId ∉ (removeBlock s blockId now).1.selectedBlocks ∧
      (s.focusedBlock = some blockId → (removeBlock s blockId now).1.focusedBlock = none)) := by
  constructor
  · intro h
    exact removeBlock_none s blockId now h
  · intro b h
    rw [removeBlock_some s blockId b now h]
    refine ⟨rfl, ?_, ?_, ?_, ?_⟩
    · simp only [notify_blocks, saveToHistory_blocks]
      rw [mapGet_eq_none_iff]
      exact not_mem_mapKeys_delete _ _ hkeys
    · simp only [notify_blockOrder, saveToHistory_blockOrder]
      simp [List.mem_filter]
    · simp only [notify_selectedBlocks, saveToHistory_selectedBlocks]
      exact setDelete_not_mem _ _ hsel
    · intro hf
      simp only [notify_focusedBlock, saveToHistory_focusedBlock]
      simp [hf]

/-- C5 witness: concrete application on a one-block document. -/
theorem claim5_witness :
    (removeBlock stateA "a" 7).2 = true ∧
    mapGet (removeBlock stateA "a" 7).1.blocks "a" = none ∧
    "a" ∉ (removeBlock stateA "a" 7).1.blockOrder ∧
    "a" ∉ (removeBlock stateA "a" 7).1.selectedBlocks ∧
    (stateA.focusedBlock = some "a" → (removeBlock stateA "a" 7).1.focusedBlock = none) :=
  (claim5_removeBlock_contract stateA "a" 7 (by decide) (by decide)).2
    (buildBlock dataA "a" 1) (by decide)

/-- C6: moveBlock of a present identity keeps the ordering index a
permutation of what it was, for every Int target position including
positions outside the valid range (JS splice clamps them); so no entry is
lost or duplicated and the length is preserved. -/
theorem claim6_moveBlock_preserves_index (s : DocState) (blockId : String) (p : Int) (now : Nat)
    (h : blockId ∈ s.blockOrder) :
    ((moveBlock s blockId p now).1.blockOrder).Perm s.blockOrder ∧
    (moveBlock s blockId p now).2 = true := by
  cases hidx : listIndexOf s.blockOrder blockId with
  | none => exact absurd ((listIndexOf_eq_none_iff _ _).mp hidx) (by simp [h])
  | some ci =>
    obtain ⟨hdec, hlt⟩ := listIndexOf_decomp _ _ _ hidx
    unfold moveBlock
    rw [hidx]
    dsimp only
    constructor
    · simp only [notify_blockOrder, saveToHistory_blockOrder]
      have h1 : (jsInsertAt (jsEraseAt s.blockOrder ci)
          (spliceStart (jsEraseAt s.blockOrder ci).length p) blockId).Perm
          (blockId :: jsEraseAt s.blockOrder ci) := jsInsertAt_perm _ _ _
      have h2 : (s.blockOrder.take ci ++ blockId :: s.blockOrder.drop (ci + 1)).Perm
          (blockId :: (s.blockOrder.take ci ++ s.blockOrder.drop (ci + 1))) :=
        List.perm_middle
      rw [hdec] at h2
      exact h1.trans h2.symm
    · rfl

/-- C6 witness: move block a of a two-block document to the out-of-range
position 99. -/
theorem claim6_witness :
    ((moveBlock stateAB "a" 99 5).1.blockOrder).Perm stateAB.blockOrder ∧
    (moveBlock stateAB "a" 99 5).2 = true :=
  claim6_moveBlock_preserves_index stateAB "a" 99 5 (by decide)

/-- C8: the notification cycle is isolated from observer faults: the engine
state produced by a notify cycle equals the plain notify result whatever the
subscribers do (no corruption), and the i-th recorded outcome is exactly the
i-th subscriber invoked on the same refreshed state and the same change
description, whether or not earlier subscribers threw. -/
theorem claim8_observer_isolation (s : DocState) (now : Nat) (subs : List Subscriber)
    (c : String) :
    (notifyWith s now subs c).1 = notify s now ∧
    ∀ i, (notifyWith s now subs c).2.get? i =
      (subs.get? i).map (fun f => f (notify s now) c) := by
  constructor
  · rfl
  · intro i
    show (runSubscribers subs (notify s now) c).get? i = _
    generalize notify s now = st
    induction subs generalizing i with
    | nil => simp [runSubscribers]
    | cons f rest ih =>
      cases i with
      | zero => simp [runSubscribers]
      | succ j => simpa [runSubscribers] using ih j

/-- C9: undo and redo never record history: whenever they return (rather
than throw), the history stack and its bound are exactly what they were. -/
theorem claim9_undo_redo_history_frame (s : DocState) (now : Nat) :
    (∀ p, undo s now = some p →
      p.1.history = s.history ∧ p.1.maxHistorySize = s.maxHistorySize) ∧
    (∀ p, redo s now = some p →
      p.1.history = s.history ∧ p.1.maxHistorySize = s.maxHistorySize) := by
  constructor
  · intro p hp
    unfold undo at hp
    by_cases hc : s.historyIndex < 0
    · rw [if_pos hc] at hp
      cases hp
      exact ⟨rfl, rfl⟩
    · rw [if_neg hc] at hp
      cases hget : jsGetElem s.history s.historyIndex with
      | none => rw [hget] at hp; cases hp
      | some item =>
        rw [hget] at hp
        dsimp only at hp
        cases hp
        exact ⟨by simp [applyHistoryItem_history],
               by simp [applyHistoryItem_maxHistorySize]⟩
  · intro p hp
    unfold redo at hp
    by_cases hc : s.historyIndex ≥ (s.history.length : Int) - 1
    · rw [if_pos hc] at hp
      cases hp
      exact ⟨rfl, rfl⟩
    · rw [if_neg hc] at hp
      dsimp only at hp
      cases hget : jsGetElem s.history (s.historyIndex + 1) with
      | none => rw [hget] at hp; cases hp
      | some item =>
        rw [hget] at hp
        cases hp
        exact ⟨by simp [applyHistoryItem_history],
               by simp [applyHistoryItem_maxHistorySize]⟩

/-- C9 witness: concrete application where undo actually replays an entry. -/
theorem claim9_witness :
    ((undo stateA 5).getD (stateA, false)).1.history = stateA.history := by
  have h : undo stateA 5 = some ((undo stateA 5).getD (stateA, false)) := by decide
  exact ((claim9_undo_redo_history_frame stateA 5).1 _ h).1

/-! History bookkeeping lemmas. -/

theorem jsSliceTo_nonneg {α : Type} (l : List α) (e : Int) (h : 0 ≤ e) :
    jsSliceTo l e = l.take e.toNat := by
  unfold jsSliceTo
  rw [if_neg (by omega)]

theorem saveToHistory_spec (s : DocState) (d : HistoryData) (now : Nat) (hinv : HistInv s) :
    (saveToHistory s d now).maxHistorySize = s.maxHistorySize ∧
    ((s.historyIndex + 1).toNat + 1 > s.maxHistorySize →
      (saveToHistory s d now).history =
        (s.history.take (s.historyIndex + 1).toNat ++
          [({ data := d, timestamp := now } : HistoryItem)]).drop 1 ∧
      (saveToHistory s d now).historyIndex = s.historyIndex) ∧
    ((s.historyIndex + 1).toNat + 1 ≤ s.maxHistorySize →
      (saveToHistory s d now).history =
        s.history.take (s.historyIndex + 1).toNat ++ [{ data := d, timestamp := now }] ∧
      (saveToHistory s d now).historyIndex = s.historyIndex + 1) := by
  obtain ⟨h1, h2⟩ := hinv
  have h0 : (0 : Int) ≤ s.historyIndex + 1 := by omega
  have hsl : jsSliceTo s.history (s.historyIndex + 1) =
      s.history.take (s.historyIndex + 1).toNat := jsSliceTo_nonneg _ _ h0
  have hlen : (s.history.take (s.historyIndex + 1).toNat).length =
      (s.historyIndex + 1).toNat := by
    rw [List.length_take]
    omega
  unfold saveToHistory
  dsimp only
  rw [hsl]
  by_cases hc :
      (s.history.take (s.historyIndex + 1).toNat ++
        [({ data := d, timestamp := now } : HistoryItem)]).length > s.maxHistorySize
  · rw [if_pos hc]
    rw [List.length_append, hlen] at hc
    refine ⟨rfl, fun _ => ⟨rfl, rfl⟩, fun hle => ?_⟩
    exfalso
    simp at hc
    omega
  · rw [if_neg hc]
    rw [List.length_append, hlen] at hc
    refine ⟨rfl, fun hgt => ?_, fun _ => ⟨rfl, rfl⟩⟩
    exfalso
    simp at hc
    omega

theorem HistInv_notify_iff (s : DocState) (n : Nat) : HistInv (notify s n) ↔ HistInv s :=
  Iff.rfl

theorem HistInv_saveToHistory (s : DocState) (d : HistoryData) (now : Nat) (h : HistInv s) :
    HistInv (saveToHistory s d now) := by
  obtain ⟨hmax, hbig, hsmall⟩ := saveToHistory_spec s d now h
  obtain ⟨h1, h2⟩ := h
  have hlen : (s.history.take (s.historyIndex + 1).toNat).length =
      (s.historyIndex + 1).toNat := by
    rw [List.length_take]
    omega
  by_cases hc : (s.historyIndex + 1).toNat + 1 > s.maxHistorySize
  · obtain ⟨hh, hi⟩ := hbig hc
    unfold HistInv
    rw [hh, hi, List.length_drop, List.length_append, hlen]
    simp only [List.length_singleton]
    omega
  · obtain ⟨hh, hi⟩ := hsmall (by omega)
    unfold HistInv
    rw [hh, hi, List.length_append, hlen]
    simp only [List.length_singleton]
    omega

/-- C4: recording an entry keeps the history within its bound; when the
append would exceed the bound (exactly when the cursor sits at the last
possible slot, bound minus one) the oldest entry is dropped from the front
of the stack and the cursor is unchanged, so the evicted entry is no longer
anywhere in the stack that undo can replay from; otherwise the entry is
appended after truncating the redo branch and the cursor advances by one. -/
theorem claim4_history_bound (s : DocState) (d : HistoryData) (now : Nat)
    (hinv : HistInv s) (hcap : HistCap s) (hmax : 1 ≤ s.maxHistorySize) :
    HistCap (saveToHistory s d now) ∧
    (saveToHistory s d now).maxHistorySize = s.maxHistorySize ∧
    (s.historyIndex = (s.maxHistorySize : Int) - 1 →
      (saveToHistory s d now).historyIndex = s.historyIndex ∧
      (saveToHistory s d now).history =
        s.history.drop 1 ++ [{ data := d, timestamp := now }] ∧
      (saveToHistory s d now).history.length = s.maxHistorySize) ∧
    (s.historyIndex ≠ (s.maxHistorySize : Int) - 1 →
      (saveToHistory s d now).historyIndex = s.historyIndex + 1 ∧
      (saveToHistory s d now).history =
        s.history.take (s.historyIndex + 1).toNat ++ [{ data := d, timestamp := now }]) := by
  obtain ⟨hmaxeq, hbig, hsmall⟩ := saveToHistory_spec s d now hinv
  obtain ⟨h1, h2⟩ := hinv
  have hlen : (s.history.take (s.historyIndex + 1).toNat).length =
      (s.historyIndex + 1).toNat := by
    rw [List.length_take]
    omega
  by_cases heq : s.historyIndex = (s.maxHistorySize : Int) - 1
  · have hlenfull : s.history.length = s.maxHistorySize := by
      unfold HistCap at hcap
      omega
    have htake : s.history.take (s.historyIndex + 1).toNat = s.history :=
      List.take_of_length_le (by omega)
    obtain ⟨hh, hi⟩ := hbig (by omega)
    rw [htake] at hh
    have hdrop : (s.history ++ [({ data := d, timestamp := now } : HistoryItem)]).drop 1 =
        s.history.drop 1 ++ [{ data := d, timestamp := now }] :=
      List.drop_append_of_le_length (by omega)
    refine ⟨?_, hmaxeq, fun _ => ⟨hi, hh.trans hdrop, ?_⟩, fun hne => absurd heq hne⟩
    · unfold HistCap
      rw [hmaxeq, hh, hdrop, List.length_append, List.length_drop]
      simp only [List.length_singleton]
      omega
    · rw [hh, hdrop, List.length_append, List.length_drop]
      simp only [List.length_singleton]
      omega
  · obtain ⟨hh, hi⟩ := hsmall (by unfold HistCap at hcap; omega)
    refine ⟨?_, hmaxeq, fun hc => absurd hc heq, fun _ => ⟨hi, hh⟩⟩
    unfold HistCap
    rw [hmaxeq, hh, List.length_append, hlen]
    simp only [List.length_singleton]
    unfold HistCap at hcap
    omega

/-- C4 witness: concrete application on a one-block document. -/
theorem claim4_witness :
    HistCap (saveToHistory stateA (HistoryData.moveBlockD "a" 0 0) 9) :=
  (claim4_history_bound stateA (HistoryData.moveBlockD "a" 0 0) 9
    (by decide) (by decide) (by decide)).1

/-! More characterisation lemmas, and cursor-invariant preservation. -/

theorem updateBlock_none (s : DocState) (k : String) (u : BlockData) (now : Nat)
    (h : mapGet s.blocks k = none) : updateBlock s k u now = (s, false) := by
  unfold updateBlock
  rw [h]

theorem updateBlock_some (s : DocState) (k : String) (u : BlockData) (b : Block) (now : Nat)
    (h : mapGet s.blocks k = some b) :
    updateBlock s k u now =
      (notify (saveToHistory { s with blocks := mapSet s.blocks k (mergeUpdate b u now) }
        (HistoryData.updateBlockD k b (mergeUpdate b u now)) now) now, true) := by
  unfold updateBlock
  rw [h]

theorem moveBlock_not_found (s : DocState) (k : String) (p : Int) (now : Nat)
    (h : listIndexOf s.blockOrder k = none) : moveBlock s k p now = (s, false) := by
  unfold moveBlock
  rw [h]

theorem moveBlock_found (s : DocState) (k : String) (p : Int) (now : Nat) (ci : Nat)
    (h : listIndexOf s.blockOrder k = some ci) :
    moveBlock s k p now =
      (notify (saveToHistory { s with blockOrder := jsInsertAt (jsEraseAt s.blockOrder ci) (spliceStart (jsEraseAt s.blockOrder ci).length p) k } (HistoryData.moveBlockD k (ci : Int) p) now) now, true) := by
  unfold moveBlock
  rw [h]

theorem HistInv_addBlock (s : DocState) (d : BlockData) (p : Option Int) (g : String)
    (now : Nat) (h : HistInv s) : HistInv (addBlock s d p g now).1 := by
  unfold addBlock
  dsimp only
  exact (HistInv_notify_iff _ _).mpr (HistInv_saveToHistory _ _ _ h)

theorem HistInv_removeBlock (s : DocState) (k : String) (now : Nat) (h : HistInv s) :
    HistInv (removeBlock s k now).1 := by
  cases hg : mapGet s.blocks k with
  | none =>
    rw [removeBlock_none s k now hg]
    exact h
  | some b =>
    rw [removeBlock_some s k b now hg]
    exact (HistInv_notify_iff _ _).mpr (HistInv_saveToHistory _ _ _ h)

theorem HistInv_updateBlock (s : DocState) (k : String) (u : BlockData) (now : Nat)
    (h : HistInv s) : HistInv (updateBlock s k u now).1 := by
  cases hg : mapGet s.blocks k with
  | none =>
    rw [updateBlock_none s k u now hg]
    exact h
  | some b =>
    rw [updateBlock_some s k u b now hg]
    exact (HistInv_notify_iff _ _).mpr (HistInv_saveToHistory _ _ _ h)

theorem HistInv_moveBlock (s : DocState) (k : String) (p : Int) (now : Nat)
    (h : HistInv s) : HistInv (moveBlock s k p now).1 := by
  cases hg : listIndexOf s.blockOrder k with
  | none =>
    rw [moveBlock_not_found s k p now hg]
    exact h
  | some ci =>
    rw [moveBlock_found s k p now ci hg]
    exact (HistInv_notify_iff _ _).mpr (HistInv_saveToHistory _ _ _ h)

theorem undo_total (s : DocState) (now : Nat) (h : HistInv s) :
    ∃ p, undo s now = some p ∧ HistInv p.1 := by
  obtain ⟨h1, h2⟩ := h
  unfold undo
  by_cases hc : s.historyIndex < 0
  · rw [if_pos hc]
    exact ⟨(s, false), rfl, h1, h2⟩
  · rw [if_neg hc]
    have hex : ∃ item, jsGetElem s.history s.historyIndex = some item := by
      unfold jsGetElem
      rw [if_neg hc]
      cases hg : s.history.get? s.historyIndex.toNat with
      | none =>
        rw [List.get?_eq_none] at hg
        omega
      | some it => exact ⟨it, rfl⟩
    obtain ⟨item, hitem⟩ := hex
    rw [hitem]
    refine ⟨_, rfl, ?_⟩
    unfold HistInv
    simp only [notify_historyIndex, notify_history, applyHistoryItem_history,
      applyHistoryItem_historyIndex]
    omega

theorem redo_total (s : DocState) (now : Nat) (h : HistInv s) :
    ∃ p, redo s now = some p ∧ HistInv p.1 := by
  obtain ⟨h1, h2⟩ := h
  unfold redo
  by_cases hc : s.historyIndex ≥ (s.history.length : Int) - 1
  · rw [if_pos hc]
    exact ⟨(s, false), rfl, h1, h2⟩
  · rw [if_neg hc]
    dsimp only
    have hex : ∃ item, jsGetElem s.history (s.historyIndex + 1) = some item := by
      unfold jsGetElem
      rw [if_neg (by omega)]
      cases hg : s.history.get? (s.historyIndex + 1).toNat with
      | none =>
        rw [List.get?_eq_none] at hg
        omega
      | some it => exact ⟨it, rfl⟩
    obtain ⟨item, hitem⟩ := hex
    rw [hitem]
    refine ⟨_, rfl, ?_⟩
    unfold HistInv
    simp only [notify_historyIndex, notify_history, applyHistoryItem_history,
      applyHistoryItem_historyIndex]
    omega

theorem HistInv_clear (s : DocState) (now : Nat) : HistInv (clear s now) := by
  unfold HistInv clear
  simp only [notify_historyIndex, notify_history]
  norm_num

theorem HistInv_addAllBlocks (bs : List Block) (s : DocState) (gens : Nat → String)
    (i now : Nat) (h : HistInv s) : HistInv (addAllBlocks s bs gens i now) := by
  induction bs generalizing s i with
  | nil => exact h
  | cons b rest ih =>
    unfold addAllBlocks
    exact ih _ _ (HistInv_addBlock _ _ _ _ _ h)

theorem HistInv_deserialize (s : DocState) (data : SerializedDoc) (g : String)
    (gens : Nat → String) (now : Nat) (h : HistInv s) :
    HistInv (deserialize s data g gens now) := by
  unfold deserialize
  dsimp only
  exact (HistInv_notify_iff _ _).mpr (HistInv_addAllBlocks _ _ _ _ _ h)

/-- C10: the history cursor always stays within the window from -1 to the
last entry of the stack: every public operation maps a state satisfying the
window invariant to a state satisfying it, and none of them can throw from
such a state. -/
theorem claim10_cursor_window (s : DocState) (now : Nat) (op : FullOp) (h : HistInv s) :
    ∃ s', applyFullOp s now op = some s' ∧ HistInv s' := by
  cases op with
  | addOp d p g => exact ⟨_, rfl, HistInv_addBlock s d p g now h⟩
  | removeOp k => exact ⟨_, rfl, HistInv_removeBlock s k now h⟩
  | updateOp k u => exact ⟨_, rfl, HistInv_updateBlock s k u now h⟩
  | moveOp k p => exact ⟨_, rfl, HistInv_moveBlock s k p now h⟩
  | saveOp d => exact ⟨_, rfl, HistInv_saveToHistory s d now h⟩
  | undoOp =>
    obtain ⟨p, hp, hi⟩ := undo_total s now h
    exact ⟨p.1, by simp [applyFullOp, hp], hi⟩
  | redoOp =>
    obtain ⟨p, hp, hi⟩ := redo_total s now h
    exact ⟨p.1, by simp [applyFullOp, hp], hi⟩
  | clearOp => exact ⟨_, rfl, HistInv_clear s now⟩
  | deserializeOp data g gens => exact ⟨_, rfl, HistInv_deserialize s data g gens now h⟩
  | selectOp k m => exact ⟨_, rfl, h⟩
  | deselectOp k => exact ⟨_, rfl, h⟩
  | clearSelectionOp => exact ⟨_, rfl, h⟩
  | focusOp k => exact ⟨_, rfl, h⟩
  | setTitleOp t => exact ⟨_, rfl, h⟩
  | updateMetadataOp p => exact ⟨_, rfl, h⟩

/-- C10 witness: concrete application of the invariant to an undo. -/
theorem claim10_witness :
    ∃ s', applyFullOp stateA 9 FullOp.undoOp = some s' ∧ HistInv s' :=
  claim10_cursor_window stateA 9 FullOp.undoOp (by decide)

/-! Ordering-index invariant preservation (for the amended C1). -/

/-- The ordering-index update performed by addBlock (part_000 lines
129-133). -/
def insertPos (order : List String) (position : Option Int) (k : String) : List String :=
  match position with
  | some p =>
    if 0 ≤ p ∧ p ≤ (order.length : Int) then jsInsertAt order p.toNat k else order ++ [k]
  | none => order ++ [k]

theorem addBlock_eq (s : DocState) (d : BlockData) (p : Option Int) (g : String) (now : Nat) :
    addBlock s d p g now =
      (notify (saveToHistory { s with
          blocks := mapSet s.blocks (chosenId d g) (buildBlock d (chosenId d g) now)
          blockOrder := insertPos s.blockOrder p (chosenId d g) }
        (HistoryData.addBlockD (chosenId d g) (buildBlock d (chosenId d g) now)) now) now,
       chosenId d g) := by
  unfold addBlock insertPos
  cases p <;> rfl

theorem append_eq_jsInsertAt {α : Type} (l : List α) (a : α) :
    l ++ [a] = jsInsertAt l l.length a := by
  unfold jsInsertAt
  rw [List.take_length, List.drop_length]

theorem insertPos_exists (order : List String) (p : Option Int) (k : String) :
    ∃ i, i ≤ order.length ∧ insertPos order p k = jsInsertAt order i k := by
  cases p with
  | none => exact ⟨order.length, le_refl _, append_eq_jsInsertAt order k⟩
  | some q =>
    simp only [insertPos]
    by_cases hq : 0 ≤ q ∧ q ≤ (order.length : Int)
    · rw [if_pos hq]
      exact ⟨q.toNat, by omega, rfl⟩
    · rw [if_neg hq]
      exact ⟨order.length, le_refl _, append_eq_jsInsertAt order k⟩

theorem mapKeys_delete_nodup (m : List (String × Block)) (k : String)
    (h : (mapKeys m).Nodup) : mapKeys (mapDelete m k) = (mapKeys m).filter (· ≠ k) := by
  induction m with
  | nil => simp [mapDelete, mapKeys_nil]
  | cons p m ih =>
    rw [mapKeys_cons, List.nodup_cons] at h
    rw [mapKeys_cons, List.filter_cons]
    by_cases hp : p.1 = k
    · subst hp
      rw [if_neg (by simp)]
      have hd : mapDelete (p :: m) p.1 = m := by
        simp [mapDelete]
      rw [hd, filter_ne_of_not_mem _ _ h.1]
    · rw [if_pos (by simp [hp])]
      have hd : mapDelete (p :: m) k = p :: mapDelete m k := by
        simp only [mapDelete]
        rw [if_neg hp]
      rw [hd, mapKeys_cons, ih h.2]

theorem StoreInv_addBlock (s : DocState) (d : BlockData) (p : Option Int) (g : String)
    (now : Nat) (hs : StoreInv s) (hf : chosenId d g ∉ mapKeys s.blocks) :
    StoreInv (addBlock s d p g now).1 := by
  obtain ⟨hnd, hperm⟩ := hs
  have hko : chosenId d g ∉ s.blockOrder := fun hm => hf (hperm.mem_iff.mp hm)
  rw [addBlock_eq]
  unfold StoreInv
  simp only [notify_blockOrder, saveToHistory_blockOrder, notify_blocks, saveToHistory_blocks]
  obtain ⟨i, hi, hins⟩ := insertPos_exists s.blockOrder p (chosenId d g)
  rw [hins, mapKeys_set_absent _ _ _ hf]
  constructor
  · exact jsInsertAt_nodup _ _ _ hnd hko
  · have h1 : (jsInsertAt s.blockOrder i (chosenId d g)).Perm
        (chosenId d g :: s.blockOrder) := jsInsertAt_perm _ _ _
    have h2 : (chosenId d g :: s.blockOrder).Perm
        (chosenId d g :: mapKeys s.blocks) := hperm.cons _
    have h3 : (mapKeys s.blocks ++ [chosenId d g]).Perm
        (chosenId d g :: mapKeys s.blocks) := List.perm_append_singleton _ _
    exact h1.trans (h2.trans h3.symm)

theorem StoreInv_removeBlock (s : DocState) (k : String) (now : Nat) (hs : StoreInv s) :
    StoreInv (removeBlock s k now).1 := by
  obtain ⟨hnd, hperm⟩ := hs
  cases hg : mapGet s.blocks k with
  | none =>
    rw [removeBlock_none s k now hg]
    exact ⟨hnd, hperm⟩
  | some b =>
    rw [removeBlock_some s k b now hg]
    unfold StoreInv
    simp only [notify_blockOrder, saveToHistory_blockOrder, notify_blocks, saveToHistory_blocks]
    have hkeysnd : (mapKeys s.blocks).Nodup := hperm.nodup_iff.mp hnd
    rw [mapKeys_delete_nodup _ _ hkeysnd]
    exact ⟨hnd.filter _, hperm.filter _⟩

theorem move_inserted_perm (order : List String) (k : String) (ci : Nat) (p : Int)
    (hidx : listIndexOf order k = some ci) :
    (jsInsertAt (jsEraseAt order ci) (spliceStart (jsEraseAt order ci).length p) k).Perm
      order := by
  obtain ⟨hdec, hlt⟩ := listIndexOf_decomp _ _ _ hidx
  have h1 : (jsInsertAt (jsEraseAt order ci) (spliceStart (jsEraseAt order ci).length p) k).Perm
      (k :: jsEraseAt order ci) := jsInsertAt_perm _ _ _
  have h2 : (order.take ci ++ k :: order.drop (ci + 1)).Perm
      (k :: (order.take ci ++ order.drop (ci + 1))) := List.perm_middle
  rw [hdec] at h2
  exact h1.trans h2.symm

theorem StoreInv_moveBlock (s : DocState) (k : String) (p : Int) (now : Nat)
    (hs : StoreInv s) : StoreInv (moveBlock s k p now).1 := by
  obtain ⟨hnd, hperm⟩ := hs
  cases hg : listIndexOf s.blockOrder k with
  | none =>
    rw [moveBlock_not_found s k p now hg]
    exact ⟨hnd, hperm⟩
  | some ci =>
    rw [moveBlock_found s k p now ci hg]
    unfold StoreInv
    simp only [notify_blockOrder, saveToHistory_blockOrder, notify_blocks, saveToHistory_blocks]
    have hmv := move_inserted_perm s.blockOrder k ci p hg
    exact ⟨hmv.nodup_iff.mpr hnd, hmv.trans hperm⟩

theorem StoreInv_applyOp (s : DocState) (now : Nat) (op : Op) (hs : StoreInv s)
    (hf : freshAdd s op = true) : StoreInv (applyOp s now op) := by
  cases op with
  | add d pos g =>
    have hfr : chosenId d g ∉ mapKeys s.blocks := by
      simpa [freshAdd] using hf
    exact StoreInv_addBlock s d pos g now hs hfr
  | remove k => exact StoreInv_removeBlock s k now hs
  | move k pos => exact StoreInv_moveBlock s k pos now hs

theorem StoreInv_applyOps (s : DocState) (ops : List (Op × Nat)) (hs : StoreInv s)
    (hf : stepwiseFresh s ops = true) : StoreInv (applyOps s ops) := by
  induction ops generalizing s with
  | nil => exact hs
  | cons onn rest ih =>
    obtain ⟨o, n⟩ := onn
    unfold stepwiseFresh at hf
    rw [Bool.and_eq_true] at hf
    exact ih _ (StoreInv_applyOp _ _ _ hs hf.1) hf.2

theorem stepwiseFresh_take (s : DocState) (ops : List (Op × Nat)) (n : Nat)
    (hf : stepwiseFresh s ops = true) : stepwiseFresh s (ops.take n) = true := by
  induction ops generalizing s n with
  | nil => simp [stepwiseFresh]
  | cons onn rest ih =>
    cases n with
    | zero => rfl
    | succ m =>
      obtain ⟨o, nn⟩ := onn
      rw [List.take_succ_cons]
      unfold stepwiseFresh at hf ⊢
      rw [Bool.and_eq_true] at hf
      rw [Bool.and_eq_true]
      exact ⟨hf.1, ih _ _ hf.2⟩

theorem StoreInv_initState (docId : String) (n0 : Nat) : StoreInv (initState docId n0) := by
  constructor
  · simp [initState]
  · simp [initState, mapKeys]

/-- C1 amended: for every sequence of addBlock, removeBlock and moveBlock
operations in which each addBlock uses an id (caller-supplied or generated)
that is not already a key of the block store, after every prefix of the
sequence the ordering index has no duplicate entries and its length equals
the block-store size. The freshness condition is necessary: see the
counterexample, where a repeated caller-supplied id breaks both parts. -/
theorem claim1_amended (docId : String) (n0 : Nat) (ops : List (Op × Nat)) (n : Nat)
    (hf : stepwiseFresh (initState docId n0) ops = true) :
    (applyOps (initState docId n0) (ops.take n)).blockOrder.Nodup ∧
    (applyOps (initState docId n0) (ops.take n)).blockOrder.length =
      (applyOps (initState docId n0) (ops.take n)).blocks.length := by
  have hs : StoreInv (applyOps (initState docId n0) (ops.take n)) :=
    StoreInv_applyOps _ _ (StoreInv_initState docId n0) (stepwiseFresh_take _ _ _ hf)
  obtain ⟨hnd, hperm⟩ := hs
  refine ⟨hnd, ?_⟩
  rw [hperm.length_eq]
  unfold mapKeys
  rw [List.length_map]

/-- C1 witness: a concrete fresh-id sequence of an add, a move and a
remove, checked after every prefix via the amended theorem. -/
theorem claim1_witness :
    (applyOps (initState "doc" 0)
      ([(Op.add dataA none "g1", 1), (Op.add dataB (some 0) "g2", 2),
        (Op.move "a" 1, 3), (Op.remove "a", 4)].take 3)).blockOrder.Nodup ∧
    (applyOps (initState "doc" 0)
      ([(Op.add dataA none "g1", 1), (Op.add dataB (some 0) "g2", 2),
        (Op.move "a" 1, 3), (Op.remove "a", 4)].take 3)).blockOrder.length =
      (applyOps (initState "doc" 0)
        ([(Op.add dataA none "g1", 1), (Op.add dataB (some 0) "g2", 2),
          (Op.move "a" 1, 3), (Op.remove "a", 4)].take 3)).blocks.length :=
  claim1_amended "doc" 0
    [(Op.add dataA none "g1", 1), (Op.add dataB (some 0) "g2", 2),
     (Op.move "a" 1, 3), (Op.remove "a", 4)] 3 (by decide)

/-! Undo round-trip infrastructure (for C2 and C3). -/

/-- Serialize output with the document-level updatedAt field blanked: the
comparison the amended C2 uses, since notify refreshes updatedAt on every
cycle including the undo itself. -/
def serializeNoUpd (s : DocState) : SerializedDoc :=
  { serialize s with updatedAt := 0 }

theorem serializeNoUpd_congr (s₁ s₂ : DocState)
    (h1 : s₁.documentId = s₂.documentId) (h2 : s₁.title = s₂.title)
    (h3 : s₁.version = s₂.version) (h4 : s₁.createdAt = s₂.createdAt)
    (h5 : s₁.metadata = s₂.metadata) (h6 : s₁.blocks = s₂.blocks)
    (h7 : s₁.blockOrder = s₂.blockOrder) : serializeNoUpd s₁ = serializeNoUpd s₂ := by
  unfold serializeNoUpd serialize getBlocks
  rw [h1, h2, h3, h4, h5, h6, h7]

theorem applyHistoryItem_add_rev (s : DocState) (k : String) (b : Block) (ts : Nat) :
    applyHistoryItem s { data := HistoryData.addBlockD k b, timestamp := ts } true =
      { s with blocks := mapDelete s.blocks k,
               blockOrder := s.blockOrder.filter (· ≠ k) } := rfl

theorem applyHistoryItem_add_fwd (s : DocState) (k : String) (b : Block) (ts : Nat) :
    applyHistoryItem s { data := HistoryData.addBlockD k b, timestamp := ts } false =
      { s with blocks := mapSet s.blocks k b,
               blockOrder := s.blockOrder ++ [k] } := rfl

theorem applyHistoryItem_remove_rev (s : DocState) (k : String) (b : Block) (ts : Nat) :
    applyHistoryItem s { data := HistoryData.removeBlockD k b, timestamp := ts } true =
      { s with blocks := mapSet s.blocks k b,
               blockOrder := s.blockOrder ++ [k] } := rfl

theorem applyHistoryItem_remove_fwd (s : DocState) (k : String) (b : Block) (ts : Nat) :
    applyHistoryItem s { data := HistoryData.removeBlockD k b, timestamp := ts } false =
      { s with blocks := mapDelete s.blocks k,
               blockOrder := s.blockOrder.filter (· ≠ k) } := rfl

theorem applyHistoryItem_update_rev (s : DocState) (k : String) (ob nb : Block) (ts : Nat) :
    applyHistoryItem s { data := HistoryData.updateBlockD k ob nb, timestamp := ts } true =
      { s with blocks := mapSet s.blocks k ob } := rfl

theorem applyHistoryItem_update_fwd (s : DocState) (k : String) (ob nb : Block) (ts : Nat) :
    applyHistoryItem s { data := HistoryData.updateBlockD k ob nb, timestamp := ts } false =
      { s with blocks := mapSet s.blocks k nb } := rfl

/-- The ordering-index update performed by the move branch of
applyHistoryItem (part_000 lines 362-367). -/
def moveOrder (order : List String) (k : String) (pos : Int) : List String :=
  jsInsertAt (jsEraseAt order (spliceStart order.length (jsIndexOf order k)))
    (spliceStart (jsEraseAt order (spliceStart order.length (jsIndexOf order k))).length pos) k

theorem applyHistoryItem_move_rev (s : DocState) (k : String) (f t : Int) (ts : Nat) :
    applyHistoryItem s { data := HistoryData.moveBlockD k f t, timestamp := ts } true =
      { s with blockOrder := moveOrder s.blockOrder k f } := rfl

theorem applyHistoryItem_move_fwd (s : DocState) (k : String) (f t : Int) (ts : Nat) :
    applyHistoryItem s { data := HistoryData.moveBlockD k f t, timestamp := ts } false =
      { s with blockOrder := moveOrder s.blockOrder k t } := rfl

theorem saveToHistory_cursor_item (s : DocState) (d : HistoryData) (now : Nat)
    (hinv : HistInv s) (hcap : HistCap s) (hmax : 1 ≤ s.maxHistorySize) :
    0 ≤ (saveToHistory s d now).historyIndex ∧
    jsGetElem (saveToHistory s d now).history (saveToHistory s d now).historyIndex =
      some { data := d, timestamp := now } := by
  obtain ⟨hmaxeq, hbig, hsmall⟩ := saveToHistory_spec s d now hinv
  obtain ⟨h1, h2⟩ := hinv
  unfold HistCap at hcap
  have hlen : (s.history.take (s.historyIndex + 1).toNat).length =
      (s.historyIndex + 1).toNat := by
    rw [List.length_take]
    omega
  by_cases hc : (s.historyIndex + 1).toNat + 1 > s.maxHistorySize
  · obtain ⟨hh, hi⟩ := hbig hc
    have hidx0 : 0 ≤ s.historyIndex := by omega
    refine ⟨by omega, ?_⟩
    rw [hh, hi]
    unfold jsGetElem
    rw [if_neg (by omega)]
    have ht1 : 1 ≤ (s.history.take (s.historyIndex + 1).toNat).length := by omega
    rw [List.drop_append_of_le_length ht1]
    have hdl : ((s.history.take (s.historyIndex + 1).toNat).drop 1).length =
        s.historyIndex.toNat := by
      rw [List.length_drop, hlen]
      omega
    rw [← hdl]
    exact List.get?_concat_length _ _
  · obtain ⟨hh, hi⟩ := hsmall (by omega)
    refine ⟨by omega, ?_⟩
    rw [hh, hi]
    unfold jsGetElem
    rw [if_neg (by omega)]
    have hcl := List.get?_concat_length (s.history.take (s.historyIndex + 1).toNat)
      ({ data := d, timestamp := now } : HistoryItem)
    rw [hlen] at hcl
    exact hcl

theorem undo_after_record (s1 : DocState) (dd : HistoryData) (now now2 : Nat)
    (hinv : HistInv s1) (hcap : HistCap s1) (hmax : 1 ≤ s1.maxHistorySize) :
    undo (notify (saveToHistory s1 dd now) now) now2 =
      some (notify { applyHistoryItem (notify (saveToHistory s1 dd now) now)
          { data := dd, timestamp := now } true with
        historyIndex :=
          (applyHistoryItem (notify (saveToHistory s1 dd now) now)
            { data := dd, timestamp := now } true).historyIndex - 1 } now2, true) := by
  obtain ⟨hge, hitem⟩ := saveToHistory_cursor_item s1 dd now hinv hcap hmax
  unfold undo
  rw [if_neg (by simp only [notify_historyIndex]; omega)]
  have hitem2 : jsGetElem (notify (saveToHistory s1 dd now) now).history
      (notify (saveToHistory s1 dd now) now).historyIndex =
      some { data := dd, timestamp := now } := by
    simp only [notify_history, notify_historyIndex]
    exact hitem
  rw [hitem2]

theorem not_mem_eraseAt_of_nodup (order : List String) (k : String) (ci : Nat)
    (hidx : listIndexOf order k = some ci) (hnd : order.Nodup) :
    k ∉ jsEraseAt order ci := by
  obtain ⟨hdec, hlt⟩ := listIndexOf_decomp _ _ _ hidx
  rw [← hdec] at hnd
  have hperm : (order.take ci ++ k :: order.drop (ci + 1)).Perm
      (k :: (order.take ci ++ order.drop (ci + 1))) := List.perm_middle
  have := (hperm.nodup_iff).mp hnd
  rw [List.nodup_cons] at this
  exact this.1

theorem moveOrder_restore (order : List String) (k : String) (ci : Nat) (p : Int)
    (hidx : listIndexOf order k = some ci) (hnd : order.Nodup) :
    moveOrder (jsInsertAt (jsEraseAt order ci) (spliceStart (jsEraseAt order ci).length p) k)
      k (ci : Int) = order := by
  obtain ⟨hdec, hlt⟩ := listIndexOf_decomp _ _ _ hidx
  have hkE : k ∉ jsEraseAt order ci := not_mem_eraseAt_of_nodup order k ci hidx hnd
  have hjle : spliceStart (jsEraseAt order ci).length p ≤ (jsEraseAt order ci).length :=
    spliceStart_le _ _
  have hElen : (jsEraseAt order ci).length = order.length - 1 := by
    unfold jsEraseAt
    rw [List.length_append, List.length_take, List.length_drop]
    omega
  have hidx2 : listIndexOf
      (jsInsertAt (jsEraseAt order ci) (spliceStart (jsEraseAt order ci).length p) k) k =
      some (spliceStart (jsEraseAt order ci).length p) :=
    listIndexOf_insertAt_fresh _ k _ hkE hjle
  unfold moveOrder
  rw [show jsIndexOf
      (jsInsertAt (jsEraseAt order ci) (spliceStart (jsEraseAt order ci).length p) k) k =
      ((spliceStart (jsEraseAt order ci).length p : Nat) : Int) from by
    unfold jsIndexOf
    rw [hidx2]]
  have hlen' : (jsInsertAt (jsEraseAt order ci)
      (spliceStart (jsEraseAt order ci).length p) k).length =
      (jsEraseAt order ci).length + 1 := jsInsertAt_length _ _ _
  rw [show spliceStart
      (jsInsertAt (jsEraseAt order ci) (spliceStart (jsEraseAt order ci).length p) k).length
      ((spliceStart (jsEraseAt order ci).length p : Nat) : Int) =
      spliceStart (jsEraseAt order ci).length p from by
    rw [hlen']
    exact spliceStart_of_le _ _ (by omega)]
  rw [jsEraseAt_jsInsertAt _ _ k hjle]
  rw [show spliceStart (jsEraseAt order ci).length (ci : Int) = ci from by
    rw [hElen]
    exact spliceStart_of_le _ _ (by omega)]
  exact jsInsertAt_jsEraseAt order ci k hlt hdec.symm

theorem serializeNoUpd_shell (y : DocState) (e : Int) (n : Nat) :
    serializeNoUpd (notify { y with historyIndex := e } n) = serializeNoUpd y := by
  apply serializeNoUpd_congr <;> rfl

/-- C2 amended: on a well-formed state and with the engine clock held fixed
across the mutation and the undo (the claim says undo is called
immediately), undo after a single successful mutation restores the
pre-mutation serialize output up to the document-level updatedAt field
(which notify refreshes on every cycle, so exact object equality cannot
hold, see the counterexample), with the add case additionally requiring the
fresh-id condition of the amended C1; for removeBlock the undo re-appends
the removed block at the end of the serialized block list instead of its
original position, exactly as the claim documents. -/
theorem claim2_amended (s : DocState) (now : Nat)
    (hs : StoreInv s) (hinv : HistInv s) (hcap : HistCap s)
    (hmax : 1 ≤ s.maxHistorySize) :
    (∀ d p g, chosenId d g ∉ mapKeys s.blocks →
      ∃ q, undo (addBlock s d p g now).1 now = some q ∧ q.2 = true ∧
        serializeNoUpd q.1 = serializeNoUpd s) ∧
    (∀ k u b, mapGet s.blocks k = some b →
      ∃ q, undo (updateBlock s k u now).1 now = some q ∧ q.2 = true ∧
        serializeNoUpd q.1 = serializeNoUpd s) ∧
    (∀ k p, k ∈ s.blockOrder →
      ∃ q, undo (moveBlock s k p now).1 now = some q ∧ q.2 = true ∧
        serializeNoUpd q.1 = serializeNoUpd s) ∧
    (∀ k b, mapGet s.blocks k = some b →
      ∃ q, undo (removeBlock s k now).1 now = some q ∧ q.2 = true ∧
        serializeNoUpd q.1 = { serializeNoUpd s with
          blocks := (s.blockOrder.filter (· ≠ k)).filterMap (mapGet s.blocks) ++ [b] }) := by
  obtain ⟨hnd, hperm⟩ := hs
  refine ⟨?_, ?_, ?_, ?_⟩
  · -- addBlock then undo
    intro d p g hf
    have hko : chosenId d g ∉ s.blockOrder := fun hm => hf (hperm.mem_iff.mp hm)
    rw [show (addBlock s d p g now).1 =
        notify (saveToHistory { s with
            blocks := mapSet s.blocks (chosenId d g) (buildBlock d (chosenId d g) now)
            blockOrder := insertPos s.blockOrder p (chosenId d g) }
          (HistoryData.addBlockD (chosenId d g) (buildBlock d (chosenId d g) now)) now) now
      from by rw [addBlock_eq]]
    have hundo := undo_after_record { s with
        blocks := mapSet s.blocks (chosenId d g) (buildBlock d (chosenId d g) now)
        blockOrder := insertPos s.blockOrder p (chosenId d g) }
      (HistoryData.addBlockD (chosenId d g) (buildBlock d (chosenId d g) now)) now now
      hinv hcap hmax
    rw [applyHistoryItem_add_rev] at hundo
    refine ⟨_, hundo, rfl, ?_⟩
    apply serializeNoUpd_congr
    · simp
    · simp
    · simp
    · simp
    · simp
    · simp only [notify_blocks, saveToHistory_blocks]
      show mapDelete (mapSet s.blocks (chosenId d g) (buildBlock d (chosenId d g) now))
        (chosenId d g) = s.blocks
      rw [mapSet_absent _ _ _ hf, mapDelete_append_single _ _ _ hf]
    · simp only [notify_blockOrder, saveToHistory_blockOrder]
      show (insertPos s.blockOrder p (chosenId d g)).filter (· ≠ chosenId d g) = s.blockOrder
      obtain ⟨i, hi, hins⟩ := insertPos_exists s.blockOrder p (chosenId d g)
      rw [hins]
      exact filter_jsInsertAt _ _ _ hko
  · -- updateBlock then undo
    intro k u b hb
    rw [show (updateBlock s k u now).1 =
        notify (saveToHistory { s with blocks := mapSet s.blocks k (mergeUpdate b u now) }
          (HistoryData.updateBlockD k b (mergeUpdate b u now)) now) now
      from by rw [updateBlock_some s k u b now hb]]
    have hundo := undo_after_record
      { s with blocks := mapSet s.blocks k (mergeUpdate b u now) }
      (HistoryData.updateBlockD k b (mergeUpdate b u now)) now now hinv hcap hmax
    rw [applyHistoryItem_update_rev] at hundo
    refine ⟨_, hundo, rfl, ?_⟩
    apply serializeNoUpd_congr
    · simp
    · simp
    · simp
    · simp
    · simp
    · simp only [notify_blocks, saveToHistory_blocks]
      show mapSet (mapSet s.blocks k (mergeUpdate b u now)) k b = s.blocks
      rw [mapSet_set, mapSet_get_same _ _ _ hb]
    · simp
  · -- moveBlock then undo
    intro k p hmem
    cases hidx : listIndexOf s.blockOrder k with
    | none => exact absurd ((listIndexOf_eq_none_iff _ _).mp hidx) (by simp [hmem])
    | some ci =>
      rw [show (moveBlock s k p now).1 =
          notify (saveToHistory { s with blockOrder := jsInsertAt (jsEraseAt s.blockOrder ci) (spliceStart (jsEraseAt s.blockOrder ci).length p) k }
            (HistoryData.moveBlockD k (ci : Int) p) now) now
        from by rw [moveBlock_found s k p now ci hidx]]
      have hundo := undo_after_record { s with blockOrder := jsInsertAt (jsEraseAt s.blockOrder ci) (spliceStart (jsEraseAt s.blockOrder ci).length p) k }
        (HistoryData.moveBlockD k (ci : Int) p) now now hinv hcap hmax
      rw [applyHistoryItem_move_rev] at hundo
      refine ⟨_, hundo, rfl, ?_⟩
      apply serializeNoUpd_congr
      · simp
      · simp
      · simp
      · simp
      · simp
      · simp
      · simp only [notify_blockOrder, saveToHistory_blockOrder]
        show moveOrder (jsInsertAt (jsEraseAt s.blockOrder ci)
            (spliceStart (jsEraseAt s.blockOrder ci).length p) k) k (ci : Int) = s.blockOrder
        exact moveOrder_restore s.blockOrder k ci p hidx hnd
  · -- removeBlock then undo
    intro k b hb
    rw [show (removeBlock s k now).1 =
        notify (saveToHistory { s with
            blocks := mapDelete s.blocks k
            blockOrder := s.blockOrder.filter (· ≠ k)
            selectedBlocks := setDelete s.selectedBlocks k
            focusedBlock := if s.focusedBlock = some k then none else s.focusedBlock }
          (HistoryData.removeBlockD k b) now) now
      from by rw [removeBlock_some s k b now hb]]
    have hundo := undo_after_record { s with
        blocks := mapDelete s.blocks k
        blockOrder := s.blockOrder.filter (· ≠ k)
        selectedBlocks := setDelete s.selectedBlocks k
        focusedBlock := if s.focusedBlock = some k then none else s.focusedBlock }
      (HistoryData.removeBlockD k b) now now hinv hcap hmax
    rw [applyHistoryItem_remove_rev] at hundo
    refine ⟨_, hundo, rfl, ?_⟩
    unfold serializeNoUpd serialize getBlocks
    simp only [notify_blocks, notify_blockOrder, notify_documentId, notify_title,
      notify_version, notify_createdAt, notify_metadata, saveToHistory_blocks,
      saveToHistory_blockOrder, saveToHistory_documentId, saveToHistory_title,
      saveToHistory_version, saveToHistory_createdAt, saveToHistory_metadata]
    rw [SerializedDoc.mk.injEq]
    refine ⟨rfl, rfl, rfl, rfl, rfl, rfl, ?_⟩
    rw [List.filterMap_append]
    have hfm : (s.blockOrder.filter (· ≠ k)).filterMap
        (mapGet (mapSet (mapDelete s.blocks k) k b)) =
        (s.blockOrder.filter (· ≠ k)).filterMap (mapGet s.blocks) := by
      apply List.filterMap_congr
      intro x hx
      have hxk : x ≠ k := by
        rw [List.mem_filter] at hx
        simpa using hx.2
      rw [mapGet_set_other _ _ _ _ hxk, mapGet_delete_other _ _ _ hxk]
    rw [hfm]
    have hk1 : List.filterMap (mapGet (mapSet (mapDelete s.blocks k) k b)) [k] = [b] := by
      simp [List.filterMap, mapGet_set_self]
    rw [hk1]

/-- C2 witness: concrete application of the amended theorem in the update
case on a one-block document. -/
theorem claim2_witness :
    ∃ q, undo (updateBlock stateA "a"
        { id := none, type := none, content := some "A2", attributes := none,
          createdAt := none, updatedAt := none } 1).1 1 = some q ∧ q.2 = true ∧
      serializeNoUpd q.1 = serializeNoUpd stateA :=
  (claim2_amended stateA 1 (by decide) (by decide) (by decide) (by decide)).2.1
    "a"
    { id := none, type := none, content := some "A2", attributes := none,
      createdAt := none, updatedAt := none }
    (buildBlock dataA "a" 1) (by decide)

/-! Redo round-trip infrastructure (for C3). -/

theorem redo_step (t : DocState) (itm : HistoryItem) (now : Nat)
    (hlt : t.historyIndex < (t.history.length : Int) - 1)
    (hitem : jsGetElem t.history (t.historyIndex + 1) = some itm) :
    redo t now =
      some (notify (applyHistoryItem { t with historyIndex := t.historyIndex + 1 } itm false)
        now, true) := by
  unfold redo
  rw [if_neg (by omega)]
  dsimp only
  rw [hitem]

theorem DocState_ext (a b : DocState)
    (h1 : a.documentId = b.documentId) (h2 : a.title = b.title) (h3 : a.version = b.version)
    (h4 : a.createdAt = b.createdAt) (h5 : a.updatedAt = b.updatedAt)
    (h6 : a.blocks = b.blocks) (h7 : a.blockOrder = b.blockOrder)
    (h8 : a.selectedBlocks = b.selectedBlocks) (h9 : a.focusedBlock = b.focusedBlock)
    (h10 : a.history = b.history) (h11 : a.historyIndex = b.historyIndex)
    (h12 : a.maxHistorySize = b.maxHistorySize) (h13 : a.editMode = b.editMode)
    (h14 : a.readOnly = b.readOnly) (h15 : a.metadata = b.metadata) : a = b := by
  cases a
  cases b
  dsimp only at h1 h2 h3 h4 h5 h6 h7 h8 h9 h10 h11 h12 h13 h14 h15
  subst h1 h2 h3 h4 h5 h6 h7 h8 h9 h10 h11 h12 h13 h14 h15
  rfl

theorem moveOrder_eq (order : List String) (k : String) (ci : Nat) (p : Int)
    (hidx : listIndexOf order k = some ci) :
    moveOrder order k p =
      jsInsertAt (jsEraseAt order ci) (spliceStart (jsEraseAt order ci).length p) k := by
  obtain ⟨hdec, hlt⟩ := listIndexOf_decomp _ _ _ hidx
  unfold moveOrder
  rw [show jsIndexOf order k = (ci : Int) from by
    unfold jsIndexOf
    rw [hidx]]
  rw [spliceStart_of_le _ _ (by omega)]

/-- C3 amended: on a well-formed state with the clock held fixed, undo
followed by redo restores the exact post-mutation state for updateBlock,
moveBlock and removeBlock; for addBlock it restores the post-mutation state
except that the re-added identity sits at the end of the ordering index
(exactly the post-mutation state when the add appended), because redo of an
add entry pushes the id instead of re-inserting it at the recorded position.
See the counterexample for an interior-position add. -/
theorem claim3_amended (s : DocState) (now : Nat)
    (hs : StoreInv s) (hinv : HistInv s) (hcap : HistCap s)
    (hmax : 1 ≤ s.maxHistorySize) :
    (∀ d p g, chosenId d g ∉ mapKeys s.blocks →
      ∃ q r, undo (addBlock s d p g now).1 now = some q ∧ q.2 = true ∧
        redo q.1 now = some r ∧ r.2 = true ∧
        r.1 = { (addBlock s d p g now).1 with
          blockOrder := s.blockOrder ++ [chosenId d g] }) ∧
    (∀ k u b, mapGet s.blocks k = some b →
      ∃ q r, undo (updateBlock s k u now).1 now = some q ∧ q.2 = true ∧
        redo q.1 now = some r ∧ r.2 = true ∧ r.1 = (updateBlock s k u now).1) ∧
    (∀ k p, k ∈ s.blockOrder →
      ∃ q r, undo (moveBlock s k p now).1 now = some q ∧ q.2 = true ∧
        redo q.1 now = some r ∧ r.2 = true ∧ r.1 = (moveBlock s k p now).1) ∧
    (∀ k b, mapGet s.blocks k = some b →
      ∃ q r, undo (removeBlock s k now).1 now = some q ∧ q.2 = true ∧
        redo q.1 now = some r ∧ r.2 = true ∧ r.1 = (removeBlock s k now).1) := by
  obtain ⟨hnd, hperm⟩ := hs
  refine ⟨?_, ?_, ?_, ?_⟩
  · -- addBlock, undo, redo
    intro d p g hf
    have hko : chosenId d g ∉ s.blockOrder := fun hm => hf (hperm.mem_iff.mp hm)
    rw [show (addBlock s d p g now).1 =
        notify (saveToHistory { s with
            blocks := mapSet s.blocks (chosenId d g) (buildBlock d (chosenId d g) now)
            blockOrder := insertPos s.blockOrder p (chosenId d g) }
          (HistoryData.addBlockD (chosenId d g) (buildBlock d (chosenId d g) now)) now) now
      from by rw [addBlock_eq]]
    have hundo := undo_after_record { s with
        blocks := mapSet s.blocks (chosenId d g) (buildBlock d (chosenId d g) now)
        blockOrder := insertPos s.blockOrder p (chosenId d g) }
      (HistoryData.addBlockD (chosenId d g) (buildBlock d (chosenId d g) now)) now now
      hinv hcap hmax
    rw [applyHistoryItem_add_rev] at hundo
    obtain ⟨hge, hitem⟩ := saveToHistory_cursor_item { s with
        blocks := mapSet s.blocks (chosenId d g) (buildBlock d (chosenId d g) now)
        blockOrder := insertPos s.blockOrder p (chosenId d g) }
      (HistoryData.addBlockD (chosenId d g) (buildBlock d (chosenId d g) now)) now
      hinv hcap hmax
    obtain ⟨hs1, hs2⟩ := HistInv_saveToHistory { s with
        blocks := mapSet s.blocks (chosenId d g) (buildBlock d (chosenId d g) now)
        blockOrder := insertPos s.blockOrder p (chosenId d g) }
      (HistoryData.addBlockD (chosenId d g) (buildBlock d (chosenId d g) now)) now hinv
    refine ⟨_, _, hundo, rfl, redo_step _
      { data := HistoryData.addBlockD (chosenId d g) (buildBlock d (chosenId d g) now),
        timestamp := now } now ?_ ?_, rfl, ?_⟩
    · simp only [notify_historyIndex, notify_history]
      omega
    · simp only [notify_historyIndex, notify_history]
      rw [sub_add_cancel]
      exact hitem
    · rw [applyHistoryItem_add_fwd]
      apply DocState_ext
      · simp
      · simp
      · simp
      · simp
      · simp
      · simp only [notify_blocks, saveToHistory_blocks]
        rw [mapSet_absent _ _ _ hf, mapDelete_append_single _ _ _ hf,
          mapSet_absent _ _ _ hf]
      · simp only [notify_blockOrder, saveToHistory_blockOrder]
        obtain ⟨i, hi, hins⟩ := insertPos_exists s.blockOrder p (chosenId d g)
        rw [hins, filter_jsInsertAt _ _ _ hko]
      · simp
      · simp
      · simp
      · simp only [notify_historyIndex, notify_history]
        omega
      · simp
      · simp
      · simp
      · simp
  · -- updateBlock, undo, redo
    intro k u b hb
    rw [show (updateBlock s k u now).1 =
        notify (saveToHistory { s with blocks := mapSet s.blocks k (mergeUpdate b u now) }
          (HistoryData.updateBlockD k b (mergeUpdate b u now)) now) now
      from by rw [updateBlock_some s k u b now hb]]
    have hundo := undo_after_record
      { s with blocks := mapSet s.blocks k (mergeUpdate b u now) }
      (HistoryData.updateBlockD k b (mergeUpdate b u now)) now now hinv hcap hmax
    rw [applyHistoryItem_update_rev] at hundo
    obtain ⟨hge, hitem⟩ := saveToHistory_cursor_item
      { s with blocks := mapSet s.blocks k (mergeUpdate b u now) }
      (HistoryData.updateBlockD k b (mergeUpdate b u now)) now hinv hcap hmax
    obtain ⟨hs1, hs2⟩ := HistInv_saveToHistory
      { s with blocks := mapSet s.blocks k (mergeUpdate b u now) }
      (HistoryData.updateBlockD k b (mergeUpdate b u now)) now hinv
    refine ⟨_, _, hundo, rfl, redo_step _
      { data := HistoryData.updateBlockD k b (mergeUpdate b u now),
        timestamp := now } now ?_ ?_, rfl, ?_⟩
    · simp only [notify_historyIndex, notify_history]
      omega
    · simp only [notify_historyIndex, notify_history]
      rw [sub_add_cancel]
      exact hitem
    · rw [applyHistoryItem_update_fwd]
      apply DocState_ext
      · simp
      · simp
      · simp
      · simp
      · simp
      · simp only [notify_blocks, saveToHistory_blocks]
        rw [mapSet_set, mapSet_set]
      · simp
      · simp
      · simp
      · simp
      · simp only [notify_historyIndex, notify_history]
        omega
      · simp
      · simp
      · simp
      · simp
  · -- moveBlock, undo, redo
    intro k p hmem
    cases hidx : listIndexOf s.blockOrder k with
    | none => exact absurd ((listIndexOf_eq_none_iff _ _).mp hidx) (by simp [hmem])
    | some ci =>
      rw [show (moveBlock s k p now).1 =
          notify (saveToHistory { s with blockOrder := jsInsertAt (jsEraseAt s.blockOrder ci) (spliceStart (jsEraseAt s.blockOrder ci).length p) k }
            (HistoryData.moveBlockD k (ci : Int) p) now) now
        from by rw [moveBlock_found s k p now ci hidx]]
      have hundo := undo_after_record { s with blockOrder := jsInsertAt (jsEraseAt s.blockOrder ci) (spliceStart (jsEraseAt s.blockOrder ci).length p) k }
        (HistoryData.moveBlockD k (ci : Int) p) now now hinv hcap hmax
      rw [applyHistoryItem_move_rev] at hundo
      obtain ⟨hge, hitem⟩ := saveToHistory_cursor_item { s with blockOrder := jsInsertAt (jsEraseAt s.blockOrder ci) (spliceStart (jsEraseAt s.blockOrder ci).length p) k }
        (HistoryData.moveBlockD k (ci : Int) p) now hinv hcap hmax
      obtain ⟨hs1, hs2⟩ := HistInv_saveToHistory { s with blockOrder := jsInsertAt (jsEraseAt s.blockOrder ci) (spliceStart (jsEraseAt s.blockOrder ci).length p) k }
        (HistoryData.moveBlockD k (ci : Int) p) now hinv
      refine ⟨_, _, hundo, rfl, redo_step _
        { data := HistoryData.moveBlockD k (ci : Int) p, timestamp := now } now ?_ ?_,
        rfl, ?_⟩
      · simp only [notify_historyIndex, notify_history]
        omega
      · simp only [notify_historyIndex, notify_history]
        rw [sub_add_cancel]
        exact hitem
      · rw [applyHistoryItem_move_fwd]
        apply DocState_ext
        · simp
        · simp
        · simp
        · simp
        · simp
        · simp
        · simp only [notify_blockOrder, saveToHistory_blockOrder]
          rw [moveOrder_restore s.blockOrder k ci p hidx hnd,
            moveOrder_eq s.blockOrder k ci p hidx]
        · simp
        · simp
        · simp
        · simp only [notify_historyIndex, notify_history]
          omega
        · simp
        · simp
        · simp
        · simp
  · -- removeBlock, undo, redo
    intro k b hb
    have hkeysnd : (mapKeys s.blocks).Nodup := hperm.nodup_iff.mp hnd
    have hkd : k ∉ mapKeys (mapDelete s.blocks k) := not_mem_mapKeys_delete _ _ hkeysnd
    rw [show (removeBlock s k now).1 =
        notify (saveToHistory { s with
            blocks := mapDelete s.blocks k
            blockOrder := s.blockOrder.filter (· ≠ k)
            selectedBlocks := setDelete s.selectedBlocks k
            focusedBlock := if s.focusedBlock = some k then none else s.focusedBlock }
          (HistoryData.removeBlockD k b) now) now
      from by rw [removeBlock_some s k b now hb]]
    have hundo := undo_after_record { s with
        blocks := mapDelete s.blocks k
        blockOrder := s.blockOrder.filter (· ≠ k)
        selectedBlocks := setDelete s.selectedBlocks k
        focusedBlock := if s.focusedBlock = some k then none else s.focusedBlock }
      (HistoryData.removeBlockD k b) now now hinv hcap hmax
    rw [applyHistoryItem_remove_rev] at hundo
    obtain ⟨hge, hitem⟩ := saveToHistory_cursor_item { s with
        blocks := mapDelete s.blocks k
        blockOrder := s.blockOrder.filter (· ≠ k)
        selectedBlocks := setDelete s.selectedBlocks k
        focusedBlock := if s.focusedBlock = some k then none else s.focusedBlock }
      (HistoryData.removeBlockD k b) now hinv hcap hmax
    obtain ⟨hs1, hs2⟩ := HistInv_saveToHistory { s with
        blocks := mapDelete s.blocks k
        blockOrder := s.blockOrder.filter (· ≠ k)
        selectedBlocks := setDelete s.selectedBlocks k
        focusedBlock := if s.focusedBlock = some k then none else s.focusedBlock }
      (HistoryData.removeBlockD k b) now hinv
    refine ⟨_, _, hundo, rfl, redo_step _
      { data := HistoryData.removeBlockD k b, timestamp := now } now ?_ ?_, rfl, ?_⟩
    · simp only [notify_historyIndex, notify_history]
      omega
    · simp only [notify_historyIndex, notify_history]
      rw [sub_add_cancel]
      exact hitem
    · rw [applyHistoryItem_remove_fwd]
      apply DocState_ext
      · simp
      · simp
      · simp
      · simp
      · simp
      · simp only [notify_blocks, saveToHistory_blocks]
        rw [mapSet_absent _ _ _ hkd, mapDelete_append_single _ _ _ hkd]
      · simp only [notify_blockOrder, saveToHistory_blockOrder]
        rw [List.filter_append,
          filter_ne_of_not_mem (s.blockOrder.filter (· ≠ k)) k (by simp)]
        simp
      · simp
      · simp
      · simp
      · simp only [notify_historyIndex, notify_history]
        omega
      · simp
      · simp
      · simp
      · simp

/-- C3 witness: concrete application of the amended theorem in the move
case on a two-block document. -/
theorem claim3_witness :
    ∃ q r, undo (moveBlock stateAB "b" 0 2).1 2 = some q ∧ q.2 = true ∧
      redo q.1 2 = some r ∧ r.2 = true ∧ r.1 = (moveBlock stateAB "b" 0 2).1 :=
  (claim3_amended stateAB 2 (by decide) (by decide) (by decide) (by decide)).2.2.1
    "b" 0 (by decide)

/-! Serialize / deserialize round trip (C7). -/

theorem filterMap_mapGet_ids (m : List (String × Block)) (l : List String)
    (hmem : ∀ x ∈ l, x ∈ mapKeys m) (hid : ∀ p ∈ m, p.2.id = p.1 ∧ p.1 ≠ "") :
    (l.filterMap (mapGet m)).map (·.id) = l ∧
    ∀ b ∈ l.filterMap (mapGet m), b.id ≠ "" := by
  induction l with
  | nil => simp
  | cons x xs ih =>
    have hx : x ∈ mapKeys m := hmem x (by simp)
    obtain ⟨v, hv⟩ := mapGet_isSome_of_mem m x hx
    have hvm := mapGet_mem m x v hv
    have hvid := hid _ hvm
    have hv1 : v.id = x := hvid.1
    have hv2 : x ≠ "" := hvid.2
    obtain ⟨ih1, ih2⟩ := ih (fun y hy => hmem y (by simp [hy]))
    constructor
    · simp [List.filterMap_cons, hv, ih1, hv1]
    · intro b hb
      simp only [List.filterMap_cons, hv] at hb
      rcases List.mem_cons.mp hb with hbv | hbr
      · rw [hbv, hv1]
        exact hv2
      · exact ih2 b hbr

theorem getBlocks_ids (s : DocState) (hs : StoreInv s) (hid : IdConsistent s) :
    (getBlocks s).map (·.id) = s.blockOrder ∧ ∀ b ∈ getBlocks s, b.id ≠ "" := by
  obtain ⟨hnd, hperm⟩ := hs
  exact filterMap_mapGet_ids s.blocks s.blockOrder
    (fun x hx => hperm.mem_iff.mp hx) hid

theorem addAllBlocks_spec (bs : List Block) (st : DocState) (gens : Nat → String)
    (i now : Nat) (hnd : (bs.map (·.id)).Nodup) (hne : ∀ b ∈ bs, b.id ≠ "")
    (hfresh : ∀ b ∈ bs, b.id ∉ mapKeys st.blocks) :
    (addAllBlocks st bs gens i now).blocks = st.blocks ++ bs.map (fun b => (b.id, b)) ∧
    (addAllBlocks st bs gens i now).blockOrder = st.blockOrder ++ bs.map (·.id) ∧
    (addAllBlocks st bs gens i now).metadata = st.metadata := by
  induction bs generalizing st i with
  | nil => simp [addAllBlocks]
  | cons b rest ih =>
    have hbne : b.id ≠ "" := hne b (by simp)
    have hbfr : b.id ∉ mapKeys st.blocks := hfresh b (by simp)
    have hcid : chosenId (toBlockData b) (gens i) = b.id := by
      unfold chosenId toBlockData
      simp [hbne]
    have hbb : buildBlock (toBlockData b) b.id now = b := rfl
    have hblocks : (addBlock st (toBlockData b) none (gens i) now).1.blocks =
        st.blocks ++ [(b.id, b)] := by
      rw [addBlock_eq]
      simp only [notify_blocks, saveToHistory_blocks]
      rw [hcid, hbb]
      exact mapSet_absent _ _ _ hbfr
    have horder : (addBlock st (toBlockData b) none (gens i) now).1.blockOrder =
        st.blockOrder ++ [b.id] := by
      rw [addBlock_eq]
      simp only [notify_blockOrder, saveToHistory_blockOrder]
      rw [hcid]
      rfl
    have hmeta : (addBlock st (toBlockData b) none (gens i) now).1.metadata =
        st.metadata := by
      rw [addBlock_eq]
      simp
    rw [List.map_cons, List.nodup_cons] at hnd
    obtain ⟨ihb, iho, ihm⟩ := ih ((addBlock st (toBlockData b) none (gens i) now).1) (i + 1)
      hnd.2 (fun b' hb' => hne b' (by simp [hb']))
      (by
        intro b' hb'
        rw [hblocks, mapKeys_append]
        simp only [List.mem_append, not_or]
        refine ⟨hfresh b' (by simp [hb']), ?_⟩
        have hneq : b'.id ≠ b.id := by
          intro he
          exact hnd.1 (he ▸ List.mem_map_of_mem (·.id) hb')
        simp [mapKeys, hneq])
    unfold addAllBlocks
    refine ⟨?_, ?_, ?_⟩
    · rw [ihb, hblocks]
      simp
    · rw [iho, horder]
      simp
    · rw [ihm, hmeta]

theorem mapGet_assoc_of_nodup (bs : List Block) (b : Block) (hb : b ∈ bs)
    (hnd : (bs.map (·.id)).Nodup) :
    mapGet (bs.map (fun x => (x.id, x))) b.id = some b := by
  induction bs with
  | nil => simp at hb
  | cons c rest ih =>
    rw [List.map_cons, List.nodup_cons] at hnd
    rcases List.mem_cons.mp hb with hbc | hbr
    · subst hbc
      simp [mapGet]
    · have hne : c.id ≠ b.id := by
        intro he
        exact hnd.1 (he ▸ List.mem_map_of_mem (·.id) hbr)
      simp only [List.map_cons, mapGet]
      rw [if_neg hne]
      exact ih hbr hnd.2

theorem filterMap_mapGet_of_get (M : List (String × Block)) (bs : List Block)
    (h : ∀ b ∈ bs, mapGet M b.id = some b) :
    (bs.map (·.id)).filterMap (mapGet M) = bs := by
  induction bs with
  | nil => simp
  | cons b rest ih =>
    simp only [List.map_cons, List.filterMap_cons, h b (by simp)]
    rw [ih (fun b' hb' => h b' (by simp [hb']))]

theorem deserialize_spec (s0 : DocState) (data : SerializedDoc) (gd : String)
    (gens : Nat → String) (now : Nat) (hnd : (data.blocks.map (·.id)).Nodup)
    (hne : ∀ b ∈ data.blocks, b.id ≠ "") :
    (deserialize s0 data gd gens now).blocks = data.blocks.map (fun b => (b.id, b)) ∧
    (deserialize s0 data gd gens now).blockOrder = data.blocks.map (·.id) ∧
    (deserialize s0 data gd gens now).metadata = data.metadata := by
  obtain ⟨hb, ho, hm⟩ := addAllBlocks_spec data.blocks
    { s0 with
      documentId := if data.documentId = "" then gd else data.documentId
      title := if data.title = "" then "Untitled Document" else data.title
      version := if data.version = "" then "1.0.0" else data.version
      createdAt := if data.createdAt = 0 then now else data.createdAt
      updatedAt := if data.updatedAt = 0 then now else data.updatedAt
      metadata := data.metadata
      blocks := []
      blockOrder := [] } gens 0 now hnd hne (by intro b hbm; simp [mapKeys])
  unfold deserialize
  dsimp only
  refine ⟨?_, ?_, ?_⟩
  · simp only [notify_blocks]
    rw [hb]
    simp
  · simp only [notify_blockOrder]
    rw [ho]
    simp
  · simp only [notify_metadata]
    rw [hm]

/-- C7: serializing a well-formed document and deserializing the output
into a fresh engine reproduces the same blocks (identity, kind, content,
attributes, timestamps) in the same order, with the same metadata; the
generated-id source and the clock of the target engine are irrelevant
because every serialized block carries its own truthy id and timestamps.
The two hypotheses are the data-model invariants from the spec: the
ordering index matches the store keys, and every stored record is keyed by
its own nonempty id. -/
theorem claim7_serialize_roundtrip (s : DocState) (g0 gd : String) (n0 now : Nat)
    (gens : Nat → String) (hs : StoreInv s) (hid : IdConsistent s) :
    getBlocks (deserialize (initState g0 n0) (serialize s) gd gens now) = getBlocks s ∧
    (deserialize (initState g0 n0) (serialize s) gd gens now).blockOrder = s.blockOrder ∧
    (deserialize (initState g0 n0) (serialize s) gd gens now).metadata = s.metadata := by
  obtain ⟨hnd, hperm⟩ := hs
  obtain ⟨hids, hne⟩ := getBlocks_ids s ⟨hnd, hperm⟩ hid
  have hndids : ((getBlocks s).map (·.id)).Nodup := by
    rw [hids]
    exact hnd
  have hsb : (serialize s).blocks = getBlocks s := rfl
  obtain ⟨hb, ho, hm⟩ := deserialize_spec (initState g0 n0) (serialize s) gd gens now
    (by rw [hsb]; exact hndids) (by rw [hsb]; exact hne)
  refine ⟨?_, ?_, ?_⟩
  · unfold getBlocks
    rw [hb, ho, hsb]
    exact filterMap_mapGet_of_get _ _
      (fun b hbm => mapGet_assoc_of_nodup (getBlocks s) b hbm hndids)
  · rw [ho, hsb, hids]
  · rw [hm]
    rfl

/-- C7 witness: concrete application on a two-block document with a move in
its history. -/
theorem claim7_witness :
    getBlocks (deserialize (initState "f" 9) (serialize stateAB) "gd"
      (fun _ => "gg") 9) = getBlocks stateAB ∧
    (deserialize (initState "f" 9) (serialize stateAB) "gd"
      (fun _ => "gg") 9).blockOrder = stateAB.blockOrder ∧
    (deserialize (initState "f" 9) (serialize stateAB) "gd"
      (fun _ => "gg") 9).metadata = stateAB.metadata :=
  claim7_serialize_roundtrip stateAB "f" "gd" 9 9 (fun _ => "gg")
    (by decide) (by decide)

end AIEditor
